import Mathlib

/-!
# gocql-migrate: `cql.go`

A shallow embedding of `src/cql.go` (package `migrate`) and a verification of
its DDL synthesis (`ColumnFamily.create`) and of its reconciliation pass
(`Keyspace.Migrate`).

Conventions of the embedding

* Go `string` is `String`; Go strings that are not valid UTF-8 are outside the
  model.
* Go `int` is `Int`: the only integers of the program are slice indices and the
  `-1` of `contains`, far from the 64-bit bounds.
* A Go `error` is its message (`err.Error()`), a `String`; `nil` is `none`.
* `fmt.Sprintf` is unfolded verb by verb: `%s` and `%v` of a string (or of an
  error) insert it verbatim, `%q` inserts `quote` of it.
* `log.Printf` writes to the process logger only and is left out.
-/

namespace Cql

/-! ## `fmt`: the `%q` verb -/

/-- The double quote character, U+0022. -/
def dquote : Char := Char.ofNat 34

/-- The backslash character, U+005C. -/
def backslash : Char := Char.ofNat 92

/-- Digits of `strconv`: `lowerhex = "0123456789abcdef"`. -/
def lowerhex : List Char := "0123456789abcdef".data

/-- The hexadecimal digit `lowerhex[n]`. -/
def hexDigit (n : Nat) : Char := lowerhex.getD n '0'

/-- Go's `strconv.IsPrint`. It is exact up to U+00FF, where Go decides by the
two ranges below. Above U+00FF Go searches generated Unicode tables
(`strconv/isprint.go`); they are not reproduced, and such runes are taken as
printable. Go's tables hold some of them (U+200B, U+2028, U+3000, U+FEFF and
others) not printable: there `%q` writes a `\u` escape where `quote` keeps the
rune, so `quote` is `%q` only on strings whose runes above U+00FF are
printable. The statements below about arbitrary names use `quote` without
evaluating it, and hold as they stand with `quote` read as `%q`; the evaluated
examples use ASCII names only. -/
def isPrint (r : Nat) : Bool :=
  if r ≤ 0xFF then
    if 0x20 ≤ r ∧ r ≤ 0x7E then true
    else if 0xA1 ≤ r ∧ r ≤ 0xFF then r != 0xAD
    else false
  else true

/-- Go's `strconv.appendEscapedRune` for the quote `"`, neither ASCII-only nor
graphic-only (the mode of `%q`). -/
def appendEscapedRune (c : Char) : List Char :=
  let r := c.toNat
  if c = dquote ∨ c = backslash then [backslash, c]
  else if isPrint r then [c]
  else if r = 7 then [backslash, 'a']
  else if r = 8 then [backslash, 'b']
  else if r = 12 then [backslash, 'f']
  else if r = 10 then [backslash, 'n']
  else if r = 13 then [backslash, 'r']
  else if r = 9 then [backslash, 't']
  else if r = 11 then [backslash, 'v']
  else if r < 0x20 ∨ r = 0x7F then
    [backslash, 'x', hexDigit (r / 16), hexDigit (r % 16)]
  else if r < 0x10000 then
    [backslash, 'u', hexDigit (r / 4096 % 16), hexDigit (r / 256 % 16),
      hexDigit (r / 16 % 16), hexDigit (r % 16)]
  else
    [backslash, 'U', hexDigit (r / 268435456 % 16), hexDigit (r / 16777216 % 16),
      hexDigit (r / 1048576 % 16), hexDigit (r / 65536 % 16),
      hexDigit (r / 4096 % 16), hexDigit (r / 256 % 16),
      hexDigit (r / 16 % 16), hexDigit (r % 16)]

/-- The verb `%q` of `fmt` on a string (`strconv.Quote`): the string between
double quotes, with Go escapes for `"`, `\` and the runes that are not
printable. -/
def quote (s : String) : String :=
  ⟨dquote :: ((s.data.map appendEscapedRune).flatten ++ [dquote])⟩

/-! ## Helpers of `cql.go` -/

/-- Go: `type Key string`. -/
abbrev Key := String

/-- A Go `error`, by its message. -/
abbrev Error := String

/-- The loop of `contains`, at index `i`. -/
def containsFrom (i : Int) : List String → String → Int
  | [], _ => -1
  | e :: rest, element => if element = e then i else containsFrom (i + 1) rest element

/-- Go: `func contains(slice []string, element string) int`: the index of the
first occurrence of `element`, or `-1`. -/
def contains (slice : List String) (element : String) : Int :=
  containsFrom 0 slice element

/-- The loop of `containsKey`, at index `i`. -/
def containsKeyFrom (i : Int) : List Key → Key → Int
  | [], _ => -1
  | e :: rest, element => if element = e then i else containsKeyFrom (i + 1) rest element

/-- Go: `func containsKey(slice []Key, element Key) int`. -/
def containsKey (slice : List Key) (element : Key) : Int :=
  containsKeyFrom 0 slice element

/-- The loop of `keylist`: `l` is the text so far, `i` the index. -/
def keylistLoop : List Key → String → Nat → String
  | [], l, _ => l
  | e :: rest, l, i =>
    if i > 0 then keylistLoop rest (l ++ (", " ++ quote e)) (i + 1)
    else keylistLoop rest (l ++ quote e) (i + 1)

/-- Go: `func keylist(k []Key) string`: the quoted keys, separated by `", "`. -/
def keylist (k : List Key) : String := keylistLoop k "" 0

/-! ## The schema model -/

/-- Go: `type Column struct`. -/
structure Column where
  Name : String
  CType : String
  PKey : Bool
  deriving DecidableEq, Repr

/-- Go: `type Order struct`. -/
structure Order where
  Name : String
  Direction : String
  deriving DecidableEq, Repr

/-- Go: `type ColumnFamily struct`. A nil slice and an empty slice are both
`[]`: the program only tests `x == nil || len(x) < 1` and
`x != nil && len(x) > n`, which do not tell them apart. -/
structure ColumnFamily where
  Columns : List Column
  Ordering : List Order
  Partitioning : List Key
  deriving DecidableEq, Repr

/-! ## `ColumnFamily.create` -/

/-- First loop of `create`, over `c.Columns`: the state is the text `cql`, the
primary-key columns `pkey` found so far and the counter `i`. -/
def columnsLoop : List Column → String × List Column × Nat → String × List Column × Nat
  | [], st => st
  | col :: rest, (cql, pkey, i) =>
    let cql := if i > 0 then cql ++ ", " else cql
    let cql := cql ++ (quote col.Name ++ " " ++ col.CType)
    let pkey := if col.PKey then pkey ++ [col] else pkey
    columnsLoop rest (cql, pkey, i + 1)

/-- Second loop of `create`, over `pkey`: the state is the text `cql` and the
counter `i`. -/
def pkeyLoop (partitioning : List Key) : List Column → String × Nat → String × Nat
  | [], st => st
  | col :: rest, (cql, i) =>
    let cql :=
      if partitioning.length > 1 then
        if i = 0 then cql ++ ("(" ++ keylist partitioning ++ ")")
        else if containsKey partitioning col.Name < 0 then cql ++ (", " ++ quote col.Name)
        else cql
      else
        let cql := if i > 0 then cql ++ ", " else cql
        cql ++ quote col.Name
    pkeyLoop partitioning rest (cql, i + 1)

/-- Third loop of `create`, over `c.Ordering`. -/
def orderingLoop : List Order → String × Nat → String × Nat
  | [], st => st
  | ord :: rest, (cql, i) =>
    let cql := if i > 0 then cql ++ ", " else cql
    let cql := cql ++ (quote ord.Name ++ " " ++ ord.Direction)
    orderingLoop rest (cql, i + 1)

/-- Go: `func (c *ColumnFamily) create(cf string) (string, error)`. -/
def create (cf : String) (c : ColumnFamily) : String × Option Error :=
  let cql := "CREATE COLUMNFAMILY " ++ cf ++ " ("
  let pkey : List Column := []
  if c.Columns.length < 1 then
    ("", some "No columns defined")
  else
    let (cql, pkey, i) := columnsLoop c.Columns (cql, pkey, 0)
    if pkey.length < 1 then
      ("", some ("Column family defines no primary keys: " ++ cf))
    else
      let cql := if i > 0 then cql ++ ", " else cql
      let cql := cql ++ "PRIMARY KEY ("
      let (cql, _) := pkeyLoop c.Partitioning pkey (cql, 0)
      let cql := cql ++ "))"
      let cql :=
        if c.Ordering.length > 0 then
          let cql := cql ++ " WITH CLUSTERING ORDER BY ("
          let (cql, _) := orderingLoop c.Ordering (cql, 0)
          cql ++ ")"
        else cql
      (cql, none)

/-! ## `Keyspace.Migrate` -/

/-- Go: `type Keyspace map[string]ColumnFamily`. A map holds each key once:
the entries have pairwise distinct keys. The order of `entries` has no meaning
(see `Runtime`). -/
structure Keyspace where
  entries : List (String × ColumnFamily)
  nodup : (entries.map Prod.fst).Nodup

/-- The keys of the map. -/
def Keyspace.names (k : Keyspace) : List String := k.entries.map Prod.fst

/-- Go: `cf, ok := k[key]`. -/
def Keyspace.lookup (k : Keyspace) (key : String) : Option ColumnFamily :=
  k.entries.lookup key

/-- Go: `k[key]`, the zero `ColumnFamily` when the key is absent. -/
def Keyspace.get (k : Keyspace) (key : String) : ColumnFamily :=
  (k.lookup key).getD ⟨[], [], []⟩

/-- The `range` loops over a map that `Migrate` runs: the loop of `mapkeys`
over the keyspace, and, in the pass of the `present` loop at the column family
`key`, the loop over the map `columns` of that family. -/
inductive RangeLoop where
  | keyspace
  | columns (key : String)
  deriving DecidableEq, Repr

/-- Go leaves the iteration order of a map unspecified, and chooses it anew
for every `range` loop. `rangeOrder loop keys` is the order in which the loop
`loop` of this run visits its map, whose keys are `keys`; it is some
rearrangement of them, and the orders of different loops are independent of
each other. A listing names a column family once (the name is the key of its
row in the system table), so a run has one loop per column family; were a row
repeated, the passes over that family would share their order. -/
structure Runtime where
  rangeOrder : RangeLoop → List String → List String
  perm : ∀ loop keys, (rangeOrder loop keys).Perm keys

/-- Go: `func mapkeys(from map[string]ColumnFamily) []string`: the keys, in the
order `range` yields them. -/
def mapkeys (rt : Runtime) (k : Keyspace) : List String :=
  rt.rangeOrder RangeLoop.keyspace k.names

/-- Go: `map[string]Column`, as built by `columnsByName`. -/
abbrev ColumnMap := List (String × Column)

/-- Go: `cols[key] = e`: replaces the value of a key already there, adds the
entry otherwise. -/
def ColumnMap.set (cols : ColumnMap) (key : String) (e : Column) : ColumnMap :=
  if (cols.lookup key).isSome then
    cols.map (fun p => if p.1 = key then (key, e) else p)
  else cols ++ [(key, e)]

/-- Go: `delete(columns, name)`. -/
def ColumnMap.delete (cols : ColumnMap) (name : String) : ColumnMap :=
  cols.filter (fun p => p.1 ≠ name)

/-- The loop of `columnsByName`. -/
def columnsByNameLoop : List Column → ColumnMap → ColumnMap
  | [], cols => cols
  | e :: rest, cols => columnsByNameLoop rest (cols.set e.Name e)

/-- Go: `func (c *ColumnFamily) columnsByName() map[string]Column`. -/
def columnsByName (c : ColumnFamily) : ColumnMap :=
  columnsByNameLoop c.Columns []

/-- Go: `for _, e := range columns`, in the pass at the column family `key`:
the values of the map, in the order this loop visits them. -/
def rangeValues (rt : Runtime) (key : String) (columns : ColumnMap) : List Column :=
  (rt.rangeOrder (RangeLoop.columns key) (columns.map Prod.fst)).filterMap
    (fun name => columns.lookup name)

/-- The `*gocql.Session` as `Migrate` uses it. The two `SELECT` queries on the
system tables are answered by `columnfamilies ksname` and
`columns ksname key`: the rows `iter.Scan` yields, in order, with the result
of `iter.Close()`. `exec done query` is the result of `c.Query(query).Exec()`
when the statements `done` have been executed before. -/
structure Session where
  columnfamilies : String → List String
  columnfamiliesErr : String → Option Error
  columns : String → String → List String
  columnsErr : String → String → Option Error
  exec : List String → String → Option Error

/-- Which of the two loops of `Migrate` issued a statement. -/
inductive Kind where
  | create
  | alter
  deriving DecidableEq, Repr

/-- One call of `c.Query(query).Exec()`: the statement, with a record of the
loop that issued it, of the column family (`key`) the loop was at and, for an
`ALTER`, of the column it adds. -/
structure Call where
  kind : Kind
  key : String
  column : Option Column
  query : String
  deriving DecidableEq, Repr

/-- The statements of a trace, as the executor has seen them. -/
def queries (tr : List Call) : List String := tr.map (fun e => e.query)

/-- How a call of `Migrate` ends: `return nil`, `return err`, or `panic`. -/
inductive Outcome where
  | ok
  | error (err : Error)
  | panic (err : Error)
  deriving DecidableEq, Repr

/-- The loop of `Migrate` over the column-family rows: every row is appended
to `present` and removed from `missing` where it occurs. -/
def familiesLoop : List String → List String × List String → List String × List String
  | [], st => st
  | name :: rest, (missing, present) =>
    let present := present ++ [name]
    let i := contains missing name
    let missing :=
      if i ≥ 0 then missing.take i.toNat ++ missing.drop (i.toNat + 1) else missing
    familiesLoop rest (missing, present)

/-- The call the `missing` loop makes for `key`, with the statement of
`create`. -/
def createCall (k : Keyspace) (key : String) : Call :=
  ⟨Kind.create, key, none, (create key (k.get key)).1⟩

/-- The loop of `Migrate` over `missing`; `tr` is the trace of the statements
executed so far. -/
def createLoop (k : Keyspace) (c : Session) : List String → List Call → List Call × Option Error
  | [], tr => (tr, none)
  | key :: rest, tr =>
    let cf := k.get key
    match create key cf with
    | (_, some err) => (tr, some err)
    | (query, none) =>
      match c.exec (queries tr) query with
      | some err => (tr ++ [⟨Kind.create, key, none, query⟩], some err)
      | none => createLoop k c rest (tr ++ [⟨Kind.create, key, none, query⟩])

/-- The statement `fmt.Sprintf("ALTER TABLE %s ADD %q %s", key, e.Name, e.CType)`. -/
def alterStatement (key : String) (e : Column) : String :=
  "ALTER TABLE " ++ key ++ " ADD " ++ quote e.Name ++ " " ++ e.CType

/-- The call the `present` loop makes to add the column `e` to `key`. -/
def alterCall (key : String) (e : Column) : Call :=
  ⟨Kind.alter, key, some e, alterStatement key e⟩

/-- The loop of `Migrate` over the rows of the column query. -/
def scanColumns : List String → ColumnMap → ColumnMap
  | [], columns => columns
  | name :: rest, columns =>
    if (columns.lookup name).isSome then scanColumns rest (columns.delete name)
    else scanColumns rest columns

/-- The loop of `Migrate` over the columns that are left in the map. -/
def alterLoop (c : Session) (key : String) : List Column → List Call → List Call × Option Error
  | [], tr => (tr, none)
  | e :: rest, tr =>
    match c.exec (queries tr) (alterStatement key e) with
    | some err => (tr ++ [alterCall key e], some err)
    | none => alterLoop c key rest (tr ++ [alterCall key e])

/-- The loop of `Migrate` over `present`. -/
def presentLoop (rt : Runtime) (k : Keyspace) (ksname : String) (c : Session) :
    List String → List Call → List Call × Option Error
  | [], tr => (tr, none)
  | key :: rest, tr =>
    match k.lookup key with
    | none => presentLoop rt k ksname c rest tr
    | some cf =>
      let columns := scanColumns (c.columns ksname key) (columnsByName cf)
      match c.columnsErr ksname key with
      | some err => (tr, some ("Could not query column names: " ++ err))
      | none =>
        if columns.length > 0 then
          match alterLoop c key (rangeValues rt key columns) tr with
          | (tr, some err) => (tr, some err)
          | (tr, none) => presentLoop rt k ksname c rest tr
        else presentLoop rt k ksname c rest tr

/-- Go: `func (k Keyspace) Migrate(ksname string, c *gocql.Session) error`,
with the trace of the statements passed to `Exec`. -/
def Migrate (rt : Runtime) (k : Keyspace) (ksname : String) (c : Session) :
    List Call × Outcome :=
  let missing := mapkeys rt k
  let present : List String := []
  let (missing, present) := familiesLoop (c.columnfamilies ksname) (missing, present)
  match c.columnfamiliesErr ksname with
  | some err => ([], Outcome.panic ("Could not query column families: " ++ err))
  | none =>
    match createLoop k c missing [] with
    | (tr, some err) => (tr, Outcome.error err)
    | (tr, none) =>
      match presentLoop rt k ksname c present tr with
      | (tr, some err) => (tr, Outcome.error err)
      | (tr, none) => (tr, Outcome.ok)

/-! ## Derived notions, used to state the properties -/

/-- The column families of `k` that no row of the column-family query names,
in the order `range` yields the keys of `k`. -/
def missingFamilies (rt : Runtime) (k : Keyspace) (ksname : String) (c : Session) :
    List String :=
  (mapkeys rt k).filter (fun n => decide (n ∉ c.columnfamilies ksname))

/-- The columns of `cf` that `Migrate` finds missing in the live column family
`key`, in the order its `range` loop visits them. -/
def missingColumns (rt : Runtime) (ksname : String) (c : Session) (key : String)
    (cf : ColumnFamily) : List Column :=
  rangeValues rt key (scanColumns (c.columns ksname key) (columnsByName cf))

/-- The calls of one pass of the `present` loop at `key` when nothing fails. -/
def patchCalls (rt : Runtime) (k : Keyspace) (ksname : String) (c : Session)
    (key : String) : List Call :=
  match k.lookup key with
  | none => []
  | some cf => (missingColumns rt ksname c key cf).map (alterCall key)

/-- The column families a trace has created. -/
def createdFamilies (tr : List Call) : List String :=
  (tr.filter (fun e => e.kind = Kind.create)).map (fun e => e.key)

/-- The names of the columns a trace has added to the column family `key`. -/
def addedColumns (tr : List Call) (key : String) : List String :=
  (tr.filter (fun e => e.kind = Kind.alter ∧ e.key = key)).filterMap
    (fun e => e.column.map (fun col => col.Name))

/-- The live schema after the statements of the trace `tr` of a run on `k`
have been applied: every created column family is listed after the ones that
were there, with exactly its desired column names, and every added column is
listed after the columns its family had. -/
def applied (k : Keyspace) (c : Session) (tr : List Call) : Session where
  columnfamilies := fun ksname => c.columnfamilies ksname ++ createdFamilies tr
  columnfamiliesErr := c.columnfamiliesErr
  columns := fun ksname key =>
    if key ∈ createdFamilies tr then (k.get key).Columns.map (fun col => col.Name)
    else c.columns ksname key ++ addedColumns tr key
  columnsErr := c.columnsErr
  exec := c.exec

/-- The live schema without what the desired keyspace does not name: the
column families that are not in `k` and, in a column family of `k`, the
columns it does not declare. -/
def pruned (k : Keyspace) (c : Session) : Session where
  columnfamilies := fun ksname => (c.columnfamilies ksname).filter (fun name => name ∈ k.names)
  columnfamiliesErr := c.columnfamiliesErr
  columns := fun ksname key =>
    (c.columns ksname key).filter
      (fun name => name ∈ (k.get key).Columns.map (fun col => col.Name))
  columnsErr := c.columnsErr
  exec := c.exec

/-- A run in which every `range` loop visits the keys in the order they are
listed. -/
def inOrder : Runtime := ⟨fun _ keys => keys, fun _ _ => List.Perm.refl _⟩

/-! ## The scenarios of the specification -/

/-- The desired column family `users`, with the columns `id`, `name`, `email`. -/
def usersFamily : ColumnFamily :=
  ⟨[⟨"id", "uuid", true⟩, ⟨"name", "text", false⟩, ⟨"email", "text", false⟩], [], []⟩

/-- The desired column family `events`. -/
def eventsFamily : ColumnFamily :=
  ⟨[⟨"id", "uuid", true⟩, ⟨"ts", "timestamp", true⟩, ⟨"payload", "text", false⟩], [], []⟩

/-- The desired keyspace `{users, events}`. -/
def desired : Keyspace :=
  ⟨[("users", usersFamily), ("events", eventsFamily)], by decide⟩

/-- A desired keyspace with the valid family `events` and the family `broken`,
which has no columns. -/
def desiredBroken : Keyspace :=
  ⟨[("events", eventsFamily), ("broken", ⟨[], [], []⟩)], by decide⟩

/-- A desired keyspace with the family `users` and the family `broken`, which
has no columns. -/
def desiredUsersBroken : Keyspace :=
  ⟨[("users", usersFamily), ("broken", ⟨[], [], []⟩)], by decide⟩

/-- A live keyspace that holds `users` with the columns `id` and `name`; no
query and no statement fails. -/
def liveUsers : Session where
  columnfamilies := fun _ => ["users"]
  columnfamiliesErr := fun _ => none
  columns := fun _ key => if key = "users" then ["id", "name"] else []
  columnsErr := fun _ _ => none
  exec := fun _ _ => none

/-- A live keyspace without column families; no query and no statement fails. -/
def liveEmpty : Session where
  columnfamilies := fun _ => []
  columnfamiliesErr := fun _ => none
  columns := fun _ _ => []
  columnsErr := fun _ _ => none
  exec := fun _ _ => none

/-- A run in which every `range` loop visits the keys in the reverse of the
order they are listed. -/
def reversed : Runtime :=
  ⟨fun _ keys => keys.reverse, fun _ keys => List.reverse_perm keys⟩

/-- A run in which the loop over the columns of `people` visits them in the
reverse of the order they are listed, and every other loop in the listed
order. -/
def mixed : Runtime :=
  ⟨fun loop keys => if loop = RangeLoop.columns "people" then keys.reverse else keys,
    fun loop keys => by
      by_cases h : loop = RangeLoop.columns "people"
      · simp only [h, if_true]
        exact List.reverse_perm keys
      · simp only [h, if_false]
        exact List.Perm.refl keys⟩

/-- The desired keyspace `{users, people}`, both with the columns `id`, `name`,
`email`. -/
def desiredPeople : Keyspace :=
  ⟨[("users", usersFamily), ("people", usersFamily)], by decide⟩

/-- A live keyspace that holds `users` and `people`, each with the column `id`
only; no query and no statement fails. -/
def liveUsersPeople : Session where
  columnfamilies := fun _ => ["users", "people"]
  columnfamiliesErr := fun _ => none
  columns := fun _ _ => ["id"]
  columnsErr := fun _ _ => none
  exec := fun _ _ => none

/-- A live keyspace that holds `users` with the column `id` only; no query and
no statement fails. -/
def liveUsersIdOnly : Session where
  columnfamilies := fun _ => ["users"]
  columnfamiliesErr := fun _ => none
  columns := fun _ key => if key = "users" then ["id"] else []
  columnsErr := fun _ _ => none
  exec := fun _ _ => none

/-- A session whose column-family query fails. -/
def liveUnreachable : Session where
  columnfamilies := fun _ => []
  columnfamiliesErr := fun _ => some "no hosts available"
  columns := fun _ _ => []
  columnsErr := fun _ _ => none
  exec := fun _ _ => none

/-- A live keyspace that holds `users`, whose column query fails. -/
def liveUsersUnreadable : Session where
  columnfamilies := fun _ => ["users"]
  columnfamiliesErr := fun _ => none
  columns := fun _ _ => []
  columnsErr := fun _ key => if key = "users" then some "timeout" else none
  exec := fun _ _ => none

/-- A live keyspace that holds `users` with the columns `id` and `name`, on
which the executor accepts one statement and refuses the next. -/
def liveUsersRefusing : Session where
  columnfamilies := fun _ => ["users"]
  columnfamiliesErr := fun _ => none
  columns := fun _ key => if key = "users" then ["id", "name"] else []
  columnsErr := fun _ _ => none
  exec := fun done _ => if done.length = 1 then some "unauthorized" else none

/-- The executor has accepted every statement of the trace `tr`: each call was
answered `nil` after the calls before it. -/
def Accepted (c : Session) (tr : List Call) : Prop :=
  ∀ done e rest, tr = done ++ e :: rest → c.exec (queries done) e.query = none

/-- The trace `tr` and the error `res` of a loop agree with the executor: if
the loop has ended without an error every statement was accepted, and a
statement the executor has refused is the last one, with its error as the
error of the loop. -/
def Stops (c : Session) (tr : List Call) (res : Option Error) : Prop :=
  (res = none → Accepted c tr) ∧
  ∀ done e rest err, tr = done ++ e :: rest → c.exec (queries done) e.query = some err →
    rest = [] ∧ res = some err

/-! ## Texts built by the loops -/

theorem foldl_append_eq (l : List String) (acc : String) :
    List.foldl (fun r s => r ++ s) acc l = acc ++ String.join l := by
  induction l generalizing acc with
  | nil => simp [String.join]
  | cons a l ih =>
    have h := ih ("" ++ a)
    simp only [String.join, List.foldl_cons] at h ⊢
    rw [ih, h, String.empty_append, String.append_assoc]
    rfl

theorem join_cons (a : String) (l : List String) :
    String.join (a :: l) = a ++ String.join l := by
  have h := foldl_append_eq l ("" ++ a)
  simpa [String.join] using h

theorem join_nil : String.join [] = "" := rfl

theorem intercalate_go_eq (s : String) (l : List String) (acc : String) :
    String.intercalate.go acc s l = acc ++ String.join (l.map (fun a => s ++ a)) := by
  induction l generalizing acc with
  | nil => simp [String.intercalate.go, join_nil]
  | cons a l ih =>
    simp only [String.intercalate.go, List.map_cons, join_cons]
    rw [ih]
    simp [String.append_assoc]

theorem intercalate_cons (s a : String) (l : List String) :
    s.intercalate (a :: l) = a ++ String.join (l.map (fun b => s ++ b)) := by
  simp [String.intercalate, intercalate_go_eq]

theorem columnsLoop_succ (cols : List Column) (cql : String) (pkey : List Column) (i : Nat) :
    columnsLoop cols (cql, pkey, i + 1) =
      (cql ++ String.join (cols.map (fun col => ", " ++ (quote col.Name ++ " " ++ col.CType))),
        pkey ++ cols.filter (fun col => col.PKey), i + 1 + cols.length) := by
  induction cols generalizing cql pkey i with
  | nil => simp [columnsLoop, join_nil]
  | cons col rest ih =>
    simp only [columnsLoop, Nat.succ_pos, if_true, gt_iff_lt, List.map_cons, join_cons,
      List.length_cons]
    rw [ih]
    cases hp : col.PKey <;>
      simp [List.filter_cons, hp, String.append_assoc, Nat.add_comm, Nat.add_left_comm]

theorem columnsLoop_zero (col : Column) (rest : List Column) (cql : String) :
    columnsLoop (col :: rest) (cql, [], 0) =
      (cql ++ ", ".intercalate ((col :: rest).map (fun col => quote col.Name ++ " " ++ col.CType)),
        (col :: rest).filter (fun col => col.PKey), (col :: rest).length) := by
  simp only [columnsLoop, Nat.lt_irrefl, if_false, gt_iff_lt, List.map_cons, intercalate_cons,
    List.length_cons, Nat.zero_add]
  rw [columnsLoop_succ]
  cases hp : col.PKey <;>
    simp [List.filter_cons, hp, String.append_assoc, List.map_map, Function.comp_def,
      Nat.add_comm]

theorem orderingLoop_succ (ords : List Order) (cql : String) (i : Nat) :
    (orderingLoop ords (cql, i + 1)).1 =
      cql ++ String.join (ords.map (fun ord => ", " ++ (quote ord.Name ++ " " ++ ord.Direction))) := by
  induction ords generalizing cql i with
  | nil => simp [orderingLoop, join_nil]
  | cons ord rest ih =>
    simp only [orderingLoop, Nat.succ_pos, if_true, gt_iff_lt, List.map_cons, join_cons]
    rw [ih]
    simp [String.append_assoc]

theorem orderingLoop_zero (ords : List Order) (cql : String) :
    (orderingLoop ords (cql, 0)).1 =
      cql ++ ", ".intercalate (ords.map (fun ord => quote ord.Name ++ " " ++ ord.Direction)) := by
  cases ords with
  | nil => simp [orderingLoop, String.intercalate]
  | cons ord rest =>
    simp only [orderingLoop, Nat.lt_irrefl, if_false, gt_iff_lt, List.map_cons,
      intercalate_cons, Nat.zero_add]
    rw [orderingLoop_succ]
    simp [String.append_assoc, List.map_map, Function.comp_def]

theorem keylistLoop_succ (k : List Key) (l : String) (i : Nat) :
    keylistLoop k l (i + 1) = l ++ String.join (k.map (fun e => ", " ++ quote e)) := by
  induction k generalizing l i with
  | nil => simp [keylistLoop, join_nil]
  | cons e rest ih =>
    simp only [keylistLoop, Nat.succ_pos, if_true, gt_iff_lt, List.map_cons, join_cons]
    rw [ih]
    simp [String.append_assoc]

theorem keylist_eq (k : List Key) : keylist k = ", ".intercalate (k.map quote) := by
  cases k with
  | nil => simp [keylist, keylistLoop, String.intercalate]
  | cons e rest =>
    simp only [keylist, keylistLoop, Nat.lt_irrefl, if_false, gt_iff_lt, List.map_cons,
      intercalate_cons, Nat.zero_add]
    rw [keylistLoop_succ]
    simp [List.map_map, Function.comp_def]

theorem containsKeyFrom_nonneg (slice : List Key) (element : Key) (i : Int) (hi : 0 ≤ i) :
    containsKeyFrom i slice element < 0 ↔ element ∉ slice := by
  induction slice generalizing i with
  | nil => simp [containsKeyFrom]
  | cons e rest ih =>
    unfold containsKeyFrom
    by_cases h : element = e
    · simp [h]; omega
    · simp [h, ih (i + 1) (by omega)]

theorem containsKey_neg_iff (slice : List Key) (element : Key) :
    containsKey slice element < 0 ↔ element ∉ slice :=
  containsKeyFrom_nonneg slice element 0 (le_refl 0)

theorem pkeyLoop_flat_succ (p : List Key) (hp : ¬ p.length > 1) (pkey : List Column)
    (cql : String) (i : Nat) :
    (pkeyLoop p pkey (cql, i + 1)).1 =
      cql ++ String.join (pkey.map (fun col => ", " ++ quote col.Name)) := by
  induction pkey generalizing cql i with
  | nil => simp [pkeyLoop, join_nil]
  | cons col rest ih =>
    simp only [pkeyLoop, hp, if_false, Nat.succ_pos, if_true, gt_iff_lt, List.map_cons,
      join_cons]
    rw [ih]
    simp [String.append_assoc]

theorem pkeyLoop_flat (p : List Key) (hp : ¬ p.length > 1) (pkey : List Column) (cql : String) :
    (pkeyLoop p pkey (cql, 0)).1 =
      cql ++ ", ".intercalate (pkey.map (fun col => quote col.Name)) := by
  cases pkey with
  | nil => simp [pkeyLoop, String.intercalate]
  | cons col rest =>
    simp only [pkeyLoop, hp, if_false, Nat.lt_irrefl, gt_iff_lt, List.map_cons,
      intercalate_cons, Nat.zero_add]
    rw [pkeyLoop_flat_succ p hp]
    simp [List.map_map, Function.comp_def, String.append_assoc]

theorem pkeyLoop_part_succ (p : List Key) (hp : p.length > 1) (pkey : List Column)
    (cql : String) (i : Nat) :
    (pkeyLoop p pkey (cql, i + 1)).1 =
      cql ++ String.join
        ((pkey.filter (fun col => decide (col.Name ∉ p))).map (fun col => ", " ++ quote col.Name)) := by
  induction pkey generalizing cql i with
  | nil => simp [pkeyLoop, join_nil]
  | cons col rest ih =>
    simp only [pkeyLoop, hp, if_true, Nat.succ_ne_zero, if_false]
    rw [ih]
    by_cases hc : col.Name ∈ p
    · have : ¬ containsKey p col.Name < 0 := by rw [containsKey_neg_iff]; simpa using hc
      simp [this, List.filter_cons, hc]
    · have : containsKey p col.Name < 0 := by rw [containsKey_neg_iff]; exact hc
      simp [this, List.filter_cons, hc, join_cons, String.append_assoc]

theorem pkeyLoop_part (p : List Key) (hp : p.length > 1) (col : Column) (rest : List Column)
    (cql : String) :
    (pkeyLoop p (col :: rest) (cql, 0)).1 =
      cql ++ ("(" ++ ", ".intercalate (p.map quote) ++ ")" ++ String.join
        ((rest.filter (fun col => decide (col.Name ∉ p))).map (fun col => ", " ++ quote col.Name))) := by
  simp only [pkeyLoop, hp, if_true, Nat.zero_add]
  rw [pkeyLoop_part_succ p hp, keylist_eq]
  simp [String.append_assoc]

theorem pkeyLoop_append (p : List Key) (pkey : List Column) (cql : String) (i : Nat) :
    (pkeyLoop p pkey (cql, i)).1 = cql ++ (pkeyLoop p pkey ("", i)).1 := by
  induction pkey generalizing cql i with
  | nil => simp [pkeyLoop]
  | cons col rest ih =>
    simp only [pkeyLoop]
    rw [ih]
    conv_rhs => rw [ih]
    split_ifs <;> simp [String.append_assoc]

/-- The text `create` writes between `PRIMARY KEY (` and `))`. -/
theorem create_eq (cf : String) (c : ColumnFamily) (h1 : c.Columns ≠ [])
    (h2 : c.Columns.filter (fun col => col.PKey) ≠ []) :
    create cf c =
      ("CREATE COLUMNFAMILY " ++ cf ++ " (" ++
        ", ".intercalate (c.Columns.map (fun col => quote col.Name ++ " " ++ col.CType)) ++
        ", PRIMARY KEY (" ++
        (pkeyLoop c.Partitioning (c.Columns.filter (fun col => col.PKey)) ("", 0)).1 ++ "))" ++
        (if c.Ordering = [] then ""
          else " WITH CLUSTERING ORDER BY (" ++
            ", ".intercalate (c.Ordering.map (fun ord => quote ord.Name ++ " " ++ ord.Direction)) ++
            ")"),
        none) := by
  obtain ⟨cols, ords, part⟩ := c
  cases cols with
  | nil => exact absurd rfl h1
  | cons col rest =>
    simp only at h2
    have hlen : ¬ (List.filter (fun col => col.PKey) (col :: rest)).length < 1 := by
      cases hf : List.filter (fun col => col.PKey) (col :: rest) with
      | nil => exact absurd hf h2
      | cons a l => simp
    unfold create
    simp only [List.length_cons, columnsLoop_zero, hlen, if_false]
    have h0 : ¬ (rest.length + 1 < 1) := by omega
    have h3 : rest.length + 1 > 0 := by omega
    simp only [h0, h3, if_true, if_false]
    rw [pkeyLoop_append]
    cases ords with
    | nil => simp [String.append_assoc]
    | cons o os =>
      simp only [List.length_cons, Nat.succ_pos, gt_iff_lt, if_true]
      have hk : ∀ x : String, ", " ++ ("PRIMARY KEY (" ++ x) = ", PRIMARY KEY (" ++ x :=
        fun x => by rw [← String.append_assoc]; rfl
      rw [orderingLoop_zero, if_neg (List.cons_ne_nil o os)]
      simp only [String.append_assoc, hk]

theorem create_no_columns (cf : String) (c : ColumnFamily) (h : c.Columns = []) :
    create cf c = ("", some "No columns defined") := by
  simp [create, h]

theorem create_no_pkey (cf : String) (c : ColumnFamily) (h1 : c.Columns ≠ [])
    (h2 : c.Columns.filter (fun col => col.PKey) = []) :
    create cf c = ("", some ("Column family defines no primary keys: " ++ cf)) := by
  obtain ⟨cols, ords, part⟩ := c
  cases cols with
  | nil => exact absurd rfl h1
  | cons col rest =>
    simp only at h2
    unfold create
    simp only [List.length_cons, columnsLoop_zero, h2]
    simp

theorem filter_pkey_ne_nil (cols : List Column) (h : ∃ col ∈ cols, col.PKey = true) :
    cols.filter (fun col => col.PKey) ≠ [] := by
  obtain ⟨col, hmem, hp⟩ := h
  intro hnil
  have : col ∈ cols.filter (fun col => col.PKey) := List.mem_filter.mpr ⟨hmem, hp⟩
  rw [hnil] at this
  exact List.not_mem_nil _ this

theorem create_statement_ne_empty (cf rest : String) :
    "CREATE COLUMNFAMILY " ++ cf ++ rest ≠ "" := by
  intro h
  have h2 := congrArg String.length h
  simp only [String.length_append] at h2
  have h3 : "CREATE COLUMNFAMILY ".length = 20 := by decide
  have h4 : "".length = 0 := by decide
  omega

/-- For names made of printable ASCII characters other than `"` and `\`, `%q`
writes the name between two double quotes and changes nothing else. -/
theorem quote_plain (s : String)
    (h : ∀ ch ∈ s.data, 0x20 ≤ ch.toNat ∧ ch.toNat ≤ 0x7E ∧ ch ≠ dquote ∧ ch ≠ backslash) :
    quote s = "\"" ++ s ++ "\"" := by
  have hflat : ∀ l : List Char,
      (∀ ch ∈ l, 0x20 ≤ ch.toNat ∧ ch.toNat ≤ 0x7E ∧ ch ≠ dquote ∧ ch ≠ backslash) →
      (l.map appendEscapedRune).flatten = l := by
    intro l
    induction l with
    | nil => intro _; rfl
    | cons a l ih =>
      intro hl
      obtain ⟨h1, h2, h3, h4⟩ := hl a (List.mem_cons_self a l)
      have ha : appendEscapedRune a = [a] := by
        have h5 : a.toNat ≤ 0xFF := by omega
        simp [appendEscapedRune, h3, h4, isPrint, h1, h2, h5]
      rw [List.map_cons, List.flatten_cons, ha,
        ih (fun ch hch => hl ch (List.mem_cons_of_mem a hch))]
      rfl
  apply String.ext
  simp only [quote, String.data_append, hflat s.data h]
  rfl

/-! ## `create`: the statement -/

/-- C1: for every name `n` and every column family with at least one column,
at least one primary-key column, at most one `Partitioning` entry and no
`Ordering`, `create n` succeeds and returns exactly
`CREATE COLUMNFAMILY n (<column definitions>, PRIMARY KEY (<key list>))`:
the column definitions are `%q` of the name (the name in double quotes), a
space and the type verbatim, for every column in `Columns` order, joined by
`", "`; the key list is the quoted names of all primary-key columns, in
`Columns` order, joined by `", "` as one flat list. -/
theorem create_flat_primary_key (n : String) (c : ColumnFamily)
    (hcols : c.Columns ≠ [])
    (hpk : ∃ col ∈ c.Columns, col.PKey = true)
    (hpart : c.Partitioning.length ≤ 1)
    (hord : c.Ordering = []) :
    create n c =
      ("CREATE COLUMNFAMILY " ++ n ++ " (" ++
        ", ".intercalate (c.Columns.map (fun col => quote col.Name ++ " " ++ col.CType)) ++
        ", PRIMARY KEY (" ++
        ", ".intercalate ((c.Columns.filter (fun col => col.PKey)).map (fun col => quote col.Name)) ++
        "))", none) := by
  rw [create_eq n c hcols (filter_pkey_ne_nil c.Columns hpk),
    pkeyLoop_flat c.Partitioning (by omega), if_pos hord, String.empty_append,
    String.append_empty]

/-- C1, at the columns `id` (key), `ts` (key), `payload` and an empty
`Partitioning`: the key clause is `PRIMARY KEY ("id", "ts")`. -/
theorem create_flat_primary_key_witness :
    create "events"
        ⟨[⟨"id", "uuid", true⟩, ⟨"ts", "timestamp", true⟩, ⟨"payload", "text", false⟩], [], []⟩ =
      ("CREATE COLUMNFAMILY events (\"id\" uuid, \"ts\" timestamp, \"payload\" text, " ++
        "PRIMARY KEY (\"id\", \"ts\"))", none) :=
  create_flat_primary_key "events"
    ⟨[⟨"id", "uuid", true⟩, ⟨"ts", "timestamp", true⟩, ⟨"payload", "text", false⟩], [], []⟩
    (by decide) ⟨⟨"id", "uuid", true⟩, by decide, rfl⟩ (by decide) rfl

/-- C2, at the columns `ts`, `a`, `b` (all primary-key columns) with
`Partitioning = [a, b]`: `create` writes the partition group and nothing
after it, so the primary-key column `ts`, which is not in `Partitioning`, is
not in the primary key at all; the statement is not the one with the clause
`PRIMARY KEY (("a", "b"), "ts")`. -/
theorem create_partitioned_drops_first_key :
    create "events"
        ⟨[⟨"ts", "timestamp", true⟩, ⟨"a", "int", true⟩, ⟨"b", "int", true⟩], [], ["a", "b"]⟩ =
      ("CREATE COLUMNFAMILY events (\"ts\" timestamp, \"a\" int, \"b\" int, " ++
        "PRIMARY KEY ((\"a\", \"b\")))", none) ∧
    (create "events"
        ⟨[⟨"ts", "timestamp", true⟩, ⟨"a", "int", true⟩, ⟨"b", "int", true⟩], [], ["a", "b"]⟩).1 ≠
      "CREATE COLUMNFAMILY events (\"ts\" timestamp, \"a\" int, \"b\" int, " ++
        "PRIMARY KEY ((\"a\", \"b\"), \"ts\"))" := by
  decide

set_option maxRecDepth 100000 in
/-- C3 fails as stated: with the columns `id` (key), `ts` (key), `payload` and
`Partitioning = [id]`, the statement `create` returns has the flat key
`PRIMARY KEY ("id", "ts")`, and the text `PRIMARY KEY (("id"), "ts")` occurs
nowhere in it. -/
theorem create_single_partition_counterexample :
    create "events"
        ⟨[⟨"id", "uuid", true⟩, ⟨"ts", "timestamp", true⟩, ⟨"payload", "text", false⟩], [],
          ["id"]⟩ =
      ("CREATE COLUMNFAMILY events (\"id\" uuid, \"ts\" timestamp, \"payload\" text, " ++
        "PRIMARY KEY (\"id\", \"ts\"))", none) ∧
    ¬ List.IsInfix "PRIMARY KEY ((\"id\"), \"ts\")".data
        (create "events"
          ⟨[⟨"id", "uuid", true⟩, ⟨"ts", "timestamp", true⟩, ⟨"payload", "text", false⟩], [],
            ["id"]⟩).1.data := by
  decide

/-- C3, amended: a `Partitioning` of exactly one entry gets no group of its
own. For every name and every column family with a primary-key column and
exactly one `Partitioning` entry, `create` writes all the primary-key
columns, quoted, in `Columns` order, as one flat list
`PRIMARY KEY ("k1", "k2", ...)`, followed by the clustering-order clause if
there is an `Ordering`. -/
theorem create_single_partition_flat (n : String) (c : ColumnFamily)
    (hpk : ∃ col ∈ c.Columns, col.PKey = true)
    (hpart : c.Partitioning.length = 1) :
    create n c =
      ("CREATE COLUMNFAMILY " ++ n ++ " (" ++
        ", ".intercalate (c.Columns.map (fun col => quote col.Name ++ " " ++ col.CType)) ++
        ", PRIMARY KEY (" ++
        ", ".intercalate ((c.Columns.filter (fun col => col.PKey)).map (fun col => quote col.Name)) ++
        "))" ++
        (if c.Ordering = [] then ""
          else " WITH CLUSTERING ORDER BY (" ++
            ", ".intercalate (c.Ordering.map (fun ord => quote ord.Name ++ " " ++ ord.Direction)) ++
            ")"), none) := by
  have hcols : c.Columns ≠ [] := by
    obtain ⟨col, hmem, _⟩ := hpk
    exact List.ne_nil_of_mem hmem
  rw [create_eq n c hcols (filter_pkey_ne_nil c.Columns hpk),
    pkeyLoop_flat c.Partitioning (by omega), String.empty_append]

/-- C3, amended, at the columns `id` (key), `ts` (key), `payload` with
`Partitioning = [id]`: the key clause is `PRIMARY KEY ("id", "ts")`. -/
theorem create_single_partition_flat_witness :
    create "events"
        ⟨[⟨"id", "uuid", true⟩, ⟨"ts", "timestamp", true⟩, ⟨"payload", "text", false⟩], [],
          ["id"]⟩ =
      ("CREATE COLUMNFAMILY events (\"id\" uuid, \"ts\" timestamp, \"payload\" text, " ++
        "PRIMARY KEY (\"id\", \"ts\"))" ++ "", none) :=
  create_single_partition_flat "events"
    ⟨[⟨"id", "uuid", true⟩, ⟨"ts", "timestamp", true⟩, ⟨"payload", "text", false⟩], [], ["id"]⟩
    ⟨⟨"id", "uuid", true⟩, by decide, rfl⟩ rfl

/-- C4: for every name and every column family, `create` returns an error if
and only if `Columns` is empty or no column is a primary-key column; with an
error the returned statement is the empty string, and without an error it is
not empty. -/
theorem create_error_iff (n : String) (c : ColumnFamily) :
    ((create n c).2 ≠ none ↔ (c.Columns = [] ∨ ∀ col ∈ c.Columns, col.PKey = false)) ∧
    ((create n c).2 ≠ none → (create n c).1 = "") ∧
    ((create n c).2 = none → (create n c).1 ≠ "") := by
  by_cases h1 : c.Columns = []
  · simp [create_no_columns n c h1, h1]
  · by_cases h2 : c.Columns.filter (fun col => col.PKey) = []
    · have h3 : ∀ col ∈ c.Columns, col.PKey = false := by
        intro col hmem
        cases hp : col.PKey with
        | false => rfl
        | true =>
          have : col ∈ c.Columns.filter (fun col => col.PKey) := List.mem_filter.mpr ⟨hmem, hp⟩
          rw [h2] at this
          exact absurd this (List.not_mem_nil _)
      rw [create_no_pkey n c h1 h2]
      exact ⟨⟨fun _ => Or.inr h3, fun _ => by simp⟩, fun _ => rfl, fun h => by simp at h⟩
    · rw [create_eq n c h1 h2]
      refine ⟨⟨fun h => absurd rfl h, fun h => ?_⟩, fun h => absurd rfl h, fun _ => ?_⟩
      · rcases h with h | h
        · exact absurd h h1
        · exfalso
          apply h2
          rw [List.filter_eq_nil_iff]
          intro col hmem
          simp [h col hmem]
      · simp only [String.append_assoc]
        rw [← String.append_assoc]
        exact create_statement_ne_empty n _

/-- C10: for every column family on which `create` succeeds: with a non-empty
`Ordering` the statement is the statement of the same family without
`Ordering`, followed by exactly ` WITH CLUSTERING ORDER BY (`, the entries
`%q` of the name, a space and the direction, in `Ordering` order, joined by
`", "`, and `)`; with an empty `Ordering` the statement ends with the `))`
that closes the primary key. -/
theorem create_clustering_order (n : String) (c : ColumnFamily)
    (hok : (create n c).2 = none) :
    (c.Ordering ≠ [] →
      (create n c).1 =
        (create n { c with Ordering := [] }).1 ++ " WITH CLUSTERING ORDER BY (" ++
          ", ".intercalate (c.Ordering.map (fun ord => quote ord.Name ++ " " ++ ord.Direction)) ++
          ")") ∧
    (c.Ordering = [] →
      (create n c).1 =
        "CREATE COLUMNFAMILY " ++ n ++ " (" ++
          ", ".intercalate (c.Columns.map (fun col => quote col.Name ++ " " ++ col.CType)) ++
          ", PRIMARY KEY (" ++
          (pkeyLoop c.Partitioning (c.Columns.filter (fun col => col.PKey)) ("", 0)).1 ++
          "))") := by
  have h1 : c.Columns ≠ [] := by
    intro h
    rw [create_no_columns n c h] at hok
    simp at hok
  have h2 : c.Columns.filter (fun col => col.PKey) ≠ [] := by
    intro h
    rw [create_no_pkey n c h1 h] at hok
    simp at hok
  have h3 := create_eq n { c with Ordering := [] } h1 h2
  simp only [if_true, String.append_empty] at h3
  constructor
  · intro hord
    rw [create_eq n c h1 h2, h3, if_neg hord]
    simp only [String.append_assoc]
  · intro hord
    rw [create_eq n c h1 h2, if_pos hord, String.append_empty]

/-- C10, at `Ordering = [{ts, DESC}]`: the statement ends with
` WITH CLUSTERING ORDER BY ("ts" DESC)`. -/
theorem create_clustering_order_witness :
    (create "events"
        ⟨[⟨"id", "uuid", true⟩, ⟨"ts", "timestamp", true⟩], [⟨"ts", "DESC"⟩], ["id"]⟩).1 =
      "CREATE COLUMNFAMILY events (\"id\" uuid, \"ts\" timestamp, PRIMARY KEY (\"id\", \"ts\"))" ++
        " WITH CLUSTERING ORDER BY (" ++ "\"ts\" DESC" ++ ")" :=
  (create_clustering_order "events"
    ⟨[⟨"id", "uuid", true⟩, ⟨"ts", "timestamp", true⟩], [⟨"ts", "DESC"⟩], ["id"]⟩
    (by decide)).1 (by decide)

/-! ## `Migrate`: the column families that are missing -/

theorem containsFrom_spec (element : String) (slice : List String) (j : Nat) :
    (element ∉ slice → containsFrom j slice element = -1) ∧
    (element ∈ slice → ∃ m : Nat, containsFrom j slice element = (j : Int) + m ∧
      slice.take m ++ slice.drop (m + 1) = slice.erase element) := by
  induction slice generalizing j with
  | nil => simp [containsFrom]
  | cons e rest ih =>
    by_cases h : element = e
    · subst h
      refine ⟨fun hn => absurd (List.mem_cons_self _ _) hn, fun _ => ⟨0, ?_, ?_⟩⟩
      · simp [containsFrom]
      · simp
    · have ih1 := ih (j + 1)
      have hcast : ((j + 1 : Nat) : Int) = (j : Int) + 1 := by push_cast; rfl
      rw [hcast] at ih1
      refine ⟨fun hn => ?_, fun hm => ?_⟩
      · have hn2 : element ∉ rest := fun hr => hn (List.mem_cons_of_mem _ hr)
        simp [containsFrom, h, ih1.1 hn2]
      · have hm2 : element ∈ rest := by
          rcases List.mem_cons.mp hm with h2 | h2
          · exact absurd h2 h
          · exact h2
        obtain ⟨m, hm3, hm4⟩ := ih1.2 hm2
        refine ⟨m + 1, ?_, ?_⟩
        · simp only [containsFrom, h, if_false, hm3]
          push_cast
          omega
        · have hne : ¬ (e == element) = true := by
            simp only [beq_iff_eq]
            exact fun h2 => h h2.symm
          simp [List.erase_cons, hne, hm4]

/-- One step of the scan: the row is removed from `missing` where it first
occurs. -/
theorem remove_at_contains (missing : List String) (name : String) :
    (if contains missing name ≥ 0 then
        missing.take (contains missing name).toNat ++
          missing.drop ((contains missing name).toNat + 1)
      else missing) = missing.erase name := by
  have hs := containsFrom_spec name missing 0
  by_cases hmem : name ∈ missing
  · obtain ⟨m, hm1, hm2⟩ := hs.2 hmem
    have hc : contains missing name = (m : Int) := by
      have h0 : ((0 : Nat) : Int) = 0 := rfl
      rw [h0] at hm1
      rw [contains, hm1]
      omega
    rw [hc]
    simp [hm2]
  · have hc : contains missing name = -1 := by
      simpa [contains] using hs.1 hmem
    rw [hc]
    simp [List.erase_of_not_mem hmem]

theorem familiesLoop_eq (names missing present : List String) :
    familiesLoop names (missing, present) =
      (names.foldl (fun m name => m.erase name) missing, present ++ names) := by
  induction names generalizing missing present with
  | nil => simp [familiesLoop]
  | cons name rest ih =>
    simp only [familiesLoop, remove_at_contains, ih, List.foldl_cons]
    simp

theorem foldl_erase_nodup (names missing : List String) (h : missing.Nodup) :
    names.foldl (fun m name => m.erase name) missing =
      missing.filter (fun n => decide (n ∉ names)) := by
  induction names generalizing missing with
  | nil => simp
  | cons name rest ih =>
    rw [List.foldl_cons, ih _ (h.erase name), h.erase_eq_filter, List.filter_filter]
    apply List.filter_congr
    intro x _
    simp only [List.mem_cons, not_or, bne_iff_ne, ne_eq, Bool.decide_and, Bool.and_comm]
    by_cases hx : x = name <;> simp [hx]

theorem mapkeys_nodup (rt : Runtime) (k : Keyspace) : (mapkeys rt k).Nodup :=
  (rt.perm RangeLoop.keyspace k.names).nodup_iff.mpr k.nodup

/-- After the scan, `missing` holds the keys of `k` that are in no row, and
`present` holds the rows. -/
theorem familiesLoop_mapkeys (rt : Runtime) (k : Keyspace) (names : List String) :
    familiesLoop names (mapkeys rt k, []) =
      ((mapkeys rt k).filter (fun n => decide (n ∉ names)), names) := by
  rw [familiesLoop_eq, foldl_erase_nodup names _ (mapkeys_nodup rt k)]
  simp

/-! ## `Migrate`: the loop over `missing` -/

theorem createLoop_cons_err (k : Keyspace) (c : Session) (key : String) (rest : List String)
    (tr : List Call) (err : Error) (h : (create key (k.get key)).2 = some err) :
    createLoop k c (key :: rest) tr = (tr, some err) := by
  rcases hc : create key (k.get key) with ⟨q, e⟩
  rw [hc] at h
  simp only at h
  subst h
  simp [createLoop, hc]

theorem createLoop_cons_exec_err (k : Keyspace) (c : Session) (key : String)
    (rest : List String) (tr : List Call) (err : Error)
    (h : (create key (k.get key)).2 = none)
    (he : c.exec (queries tr) (create key (k.get key)).1 = some err) :
    createLoop k c (key :: rest) tr = (tr ++ [createCall k key], some err) := by
  rcases hc : create key (k.get key) with ⟨q, e⟩
  rw [hc] at h he
  simp only at h he
  subst h
  simp [createLoop, hc, he, createCall]

theorem createLoop_cons_ok (k : Keyspace) (c : Session) (key : String) (rest : List String)
    (tr : List Call) (h : (create key (k.get key)).2 = none)
    (he : c.exec (queries tr) (create key (k.get key)).1 = none) :
    createLoop k c (key :: rest) tr = createLoop k c rest (tr ++ [createCall k key]) := by
  rcases hc : create key (k.get key) with ⟨q, e⟩
  rw [hc] at h he
  simp only at h he
  subst h
  simp [createLoop, hc, he, createCall]

/-- The three ways one pass of the `missing` loop can go. -/
theorem createLoop_cases (k : Keyspace) (c : Session) (key : String) (rest : List String)
    (tr : List Call) :
    (∃ err, (create key (k.get key)).2 = some err ∧
      createLoop k c (key :: rest) tr = (tr, some err)) ∨
    (∃ err, (create key (k.get key)).2 = none ∧
      c.exec (queries tr) (create key (k.get key)).1 = some err ∧
      createLoop k c (key :: rest) tr = (tr ++ [createCall k key], some err)) ∨
    ((create key (k.get key)).2 = none ∧
      c.exec (queries tr) (create key (k.get key)).1 = none ∧
      createLoop k c (key :: rest) tr = createLoop k c rest (tr ++ [createCall k key])) := by
  cases h : (create key (k.get key)).2 with
  | some err => exact Or.inl ⟨err, rfl, createLoop_cons_err k c key rest tr err h⟩
  | none =>
    cases he : c.exec (queries tr) (create key (k.get key)).1 with
    | some err =>
      exact Or.inr (Or.inl ⟨err, rfl, rfl, createLoop_cons_exec_err k c key rest tr err h he⟩)
    | none => exact Or.inr (Or.inr ⟨rfl, rfl, createLoop_cons_ok k c key rest tr h he⟩)

/-- Whatever happens, the `missing` loop extends the trace by the `CREATE`
calls of an initial part of `missing`. -/
theorem createLoop_trace (k : Keyspace) (c : Session) (ms : List String) (tr : List Call) :
    ∃ j, (createLoop k c ms tr).1 = tr ++ (ms.take j).map (createCall k) := by
  induction ms generalizing tr with
  | nil => exact ⟨0, by simp [createLoop]⟩
  | cons key rest ih =>
    rcases createLoop_cases k c key rest tr with ⟨err, _, h⟩ | ⟨err, _, _, h⟩ | ⟨_, _, h⟩
    · exact ⟨0, by simp [h]⟩
    · exact ⟨1, by simp [h]⟩
    · obtain ⟨j, hj⟩ := ih (tr ++ [createCall k key])
      exact ⟨j + 1, by simp [h, hj]⟩

/-- A `missing` loop that ends without an error has created every family of
`missing`, in order, and `create` has succeeded on each. -/
theorem createLoop_ok_inv (k : Keyspace) (c : Session) (ms : List String)
    (tr tr2 : List Call) (h : createLoop k c ms tr = (tr2, none)) :
    tr2 = tr ++ ms.map (createCall k) ∧ ∀ key ∈ ms, (create key (k.get key)).2 = none := by
  induction ms generalizing tr with
  | nil =>
    simp only [createLoop, Prod.mk.injEq, and_true] at h
    simp [h]
  | cons key rest ih =>
    rcases createLoop_cases k c key rest tr with ⟨err, _, h2⟩ | ⟨err, _, _, h2⟩ | ⟨h1, _, h2⟩
    · rw [h2] at h; simp at h
    · rw [h2] at h; simp at h
    · rw [h2] at h
      obtain ⟨h3, h4⟩ := ih _ h
      refine ⟨by simp [h3], ?_⟩
      intro key2 hmem
      rcases List.mem_cons.mp hmem with h5 | h5
      · rw [h5]; exact h1
      · exact h4 key2 h5

/-- When `create` succeeds on every family of `missing` and the executor
accepts every statement, the `missing` loop creates them all. -/
theorem createLoop_succeeds (k : Keyspace) (c : Session) (ms : List String) (tr : List Call)
    (hcreate : ∀ key ∈ ms, (create key (k.get key)).2 = none)
    (hexec : ∀ done q, c.exec done q = none) :
    createLoop k c ms tr = (tr ++ ms.map (createCall k), none) := by
  induction ms generalizing tr with
  | nil => simp [createLoop]
  | cons key rest ih =>
    rw [createLoop_cons_ok k c key rest tr (hcreate key (List.mem_cons_self _ _)) (hexec _ _),
      ih _ (fun key2 h2 => hcreate key2 (List.mem_cons_of_mem _ h2))]
    simp

/-- The `missing` loop stops at the first family on which `create` fails:
the families before it have been created, nothing else has been executed. -/
theorem createLoop_stops (k : Keyspace) (c : Session) (pre : List String) (bad : String)
    (post : List String) (tr : List Call) (err : Error)
    (hpre : ∀ key ∈ pre, (create key (k.get key)).2 = none)
    (hbad : (create bad (k.get bad)).2 = some err)
    (hexec : ∀ done q, c.exec done q = none) :
    createLoop k c (pre ++ bad :: post) tr = (tr ++ pre.map (createCall k), some err) := by
  induction pre generalizing tr with
  | nil => simp [createLoop_cons_err k c bad post tr err hbad]
  | cons key rest ih =>
    rw [List.cons_append,
      createLoop_cons_ok k c key _ tr (hpre key (List.mem_cons_self _ _)) (hexec _ _),
      ih _ (fun key2 h2 => hpre key2 (List.mem_cons_of_mem _ h2))]
    simp

/-! ## `Migrate`: the loop over `present` -/

theorem alterLoop_trace (c : Session) (key : String) (es : List Column) (tr : List Call) :
    ∃ j, (alterLoop c key es tr).1 = tr ++ (es.take j).map (alterCall key) := by
  induction es generalizing tr with
  | nil => exact ⟨0, by simp [alterLoop]⟩
  | cons e rest ih =>
    cases he : c.exec (queries tr) (alterStatement key e) with
    | some err => exact ⟨1, by simp [alterLoop, he]⟩
    | none =>
      obtain ⟨j, hj⟩ := ih (tr ++ [alterCall key e])
      exact ⟨j + 1, by simp [alterLoop, he, hj]⟩

theorem alterLoop_ok_inv (c : Session) (key : String) (es : List Column) (tr tr2 : List Call)
    (h : alterLoop c key es tr = (tr2, none)) :
    tr2 = tr ++ es.map (alterCall key) := by
  induction es generalizing tr with
  | nil =>
    simp only [alterLoop, Prod.mk.injEq, and_true] at h
    simp [h]
  | cons e rest ih =>
    cases he : c.exec (queries tr) (alterStatement key e) with
    | some err => simp [alterLoop, he] at h
    | none =>
      simp only [alterLoop, he] at h
      rw [ih _ h]
      simp

theorem alterLoop_succeeds (c : Session) (key : String) (es : List Column) (tr : List Call)
    (hexec : ∀ done q, c.exec done q = none) :
    alterLoop c key es tr = (tr ++ es.map (alterCall key), none) := by
  induction es generalizing tr with
  | nil => simp [alterLoop]
  | cons e rest ih =>
    simp only [alterLoop, hexec, ih]
    simp

theorem rangeValues_nil (rt : Runtime) (key : String) : rangeValues rt key [] = [] := by
  have h : rt.rangeOrder (RangeLoop.columns key) [] = [] :=
    List.Perm.eq_nil (rt.perm (RangeLoop.columns key) [])
  simp [rangeValues, h]

theorem presentLoop_cons_absent (rt : Runtime) (k : Keyspace) (ksname : String) (c : Session)
    (key : String) (rest : List String) (tr : List Call) (h : k.lookup key = none) :
    presentLoop rt k ksname c (key :: rest) tr = presentLoop rt k ksname c rest tr := by
  simp [presentLoop, h]

theorem presentLoop_cons_query_err (rt : Runtime) (k : Keyspace) (ksname : String)
    (c : Session) (key : String) (rest : List String) (tr : List Call) (cf : ColumnFamily)
    (err : Error) (h : k.lookup key = some cf) (he : c.columnsErr ksname key = some err) :
    presentLoop rt k ksname c (key :: rest) tr =
      (tr, some ("Could not query column names: " ++ err)) := by
  simp [presentLoop, h, he]

theorem presentLoop_cons_present (rt : Runtime) (k : Keyspace) (ksname : String) (c : Session)
    (key : String) (rest : List String) (tr : List Call) (cf : ColumnFamily)
    (h : k.lookup key = some cf) (he : c.columnsErr ksname key = none) :
    presentLoop rt k ksname c (key :: rest) tr =
      match alterLoop c key (missingColumns rt ksname c key cf) tr with
      | (tr2, some err) => (tr2, some err)
      | (tr2, none) => presentLoop rt k ksname c rest tr2 := by
  by_cases hlen : (scanColumns (c.columns ksname key) (columnsByName cf)).length > 0
  · simp [presentLoop, h, he, hlen, missingColumns]
  · have hnil : scanColumns (c.columns ksname key) (columnsByName cf) = [] := by
      cases hs : scanColumns (c.columns ksname key) (columnsByName cf) with
      | nil => rfl
      | cons a l => rw [hs] at hlen; simp at hlen
    simp [presentLoop, h, he, missingColumns, hnil, rangeValues_nil, alterLoop]

/-- Whatever happens, the `present` loop extends the trace by calls that add
a missing column to a family of `present`. -/
theorem presentLoop_trace (rt : Runtime) (k : Keyspace) (ksname : String) (c : Session)
    (present : List String) (tr : List Call) :
    ∃ new, (presentLoop rt k ksname c present tr).1 = tr ++ new ∧
      ∀ e ∈ new, ∃ key ∈ present, e ∈ patchCalls rt k ksname c key := by
  induction present generalizing tr with
  | nil => exact ⟨[], by simp [presentLoop]⟩
  | cons key rest ih =>
    cases h : k.lookup key with
    | none =>
      obtain ⟨new, h1, h2⟩ := ih tr
      refine ⟨new, by rw [presentLoop_cons_absent rt k ksname c key rest tr h, h1], ?_⟩
      intro e he
      obtain ⟨key2, h3, h4⟩ := h2 e he
      exact ⟨key2, List.mem_cons_of_mem _ h3, h4⟩
    | some cf =>
      cases hq : c.columnsErr ksname key with
      | some err =>
        exact ⟨[], by simp [presentLoop_cons_query_err rt k ksname c key rest tr cf err h hq]⟩
      | none =>
        rw [presentLoop_cons_present rt k ksname c key rest tr cf h hq]
        obtain ⟨j, hj⟩ := alterLoop_trace c key (missingColumns rt ksname c key cf) tr
        have hblock : ∀ e ∈ ((missingColumns rt ksname c key cf).take j).map (alterCall key),
            e ∈ patchCalls rt k ksname c key := by
          intro e he
          simp only [patchCalls, h]
          obtain ⟨col, hcol, rfl⟩ := List.mem_map.mp he
          exact List.mem_map.mpr ⟨col, List.mem_of_mem_take hcol, rfl⟩
        rcases hal : alterLoop c key (missingColumns rt ksname c key cf) tr with ⟨tr2, e2⟩
        rw [hal] at hj
        simp only at hj
        cases e2 with
        | some err =>
          refine ⟨_, hj, ?_⟩
          intro e he
          exact ⟨key, List.mem_cons_self _ _, hblock e he⟩
        | none =>
          obtain ⟨new, h1, h2⟩ := ih tr2
          refine ⟨((missingColumns rt ksname c key cf).take j).map (alterCall key) ++ new, ?_, ?_⟩
          · show (presentLoop rt k ksname c rest tr2).1 = _
            rw [h1, hj, List.append_assoc]
          · intro e he
            rcases List.mem_append.mp he with h3 | h3
            · exact ⟨key, List.mem_cons_self _ _, hblock e h3⟩
            · obtain ⟨key2, h4, h5⟩ := h2 e h3
              exact ⟨key2, List.mem_cons_of_mem _ h4, h5⟩

/-- A `present` loop that ends without an error has added, family by family
in the order of `present`, every column it found missing. -/
theorem presentLoop_ok_inv (rt : Runtime) (k : Keyspace) (ksname : String) (c : Session)
    (present : List String) (tr tr2 : List Call)
    (h : presentLoop rt k ksname c present tr = (tr2, none)) :
    tr2 = tr ++ present.flatMap (patchCalls rt k ksname c) := by
  induction present generalizing tr with
  | nil =>
    simp only [presentLoop, Prod.mk.injEq, and_true] at h
    simp [h]
  | cons key rest ih =>
    cases hl : k.lookup key with
    | none =>
      rw [presentLoop_cons_absent rt k ksname c key rest tr hl] at h
      rw [ih _ h]
      simp [patchCalls, hl]
    | some cf =>
      cases hq : c.columnsErr ksname key with
      | some err =>
        rw [presentLoop_cons_query_err rt k ksname c key rest tr cf err hl hq] at h
        simp at h
      | none =>
        rw [presentLoop_cons_present rt k ksname c key rest tr cf hl hq] at h
        rcases hal : alterLoop c key (missingColumns rt ksname c key cf) tr with ⟨tr3, e3⟩
        rw [hal] at h
        cases e3 with
        | some err => simp at h
        | none =>
          simp only at h
          rw [ih _ h, alterLoop_ok_inv c key _ tr tr3 hal]
          simp [patchCalls, hl]

/-- When the column queries succeed and the executor accepts every statement,
the `present` loop adds every column it finds missing. -/
theorem presentLoop_succeeds (rt : Runtime) (k : Keyspace) (ksname : String) (c : Session)
    (present : List String) (tr : List Call)
    (hcol : ∀ key ∈ present, c.columnsErr ksname key = none)
    (hexec : ∀ done q, c.exec done q = none) :
    presentLoop rt k ksname c present tr =
      (tr ++ present.flatMap (patchCalls rt k ksname c), none) := by
  induction present generalizing tr with
  | nil => simp [presentLoop]
  | cons key rest ih =>
    have hrest : ∀ key2 ∈ rest, c.columnsErr ksname key2 = none :=
      fun key2 h2 => hcol key2 (List.mem_cons_of_mem _ h2)
    cases hl : k.lookup key with
    | none =>
      rw [presentLoop_cons_absent rt k ksname c key rest tr hl, ih _ hrest]
      simp [patchCalls, hl]
    | some cf =>
      rw [presentLoop_cons_present rt k ksname c key rest tr cf hl
        (hcol key (List.mem_cons_self _ _)), alterLoop_succeeds c key _ tr hexec]
      simp only
      rw [ih _ hrest]
      simp [patchCalls, hl]

/-- A `present` loop that finds no column missing executes nothing. -/
theorem presentLoop_nothing (rt : Runtime) (k : Keyspace) (ksname : String) (c : Session)
    (present : List String) (tr : List Call)
    (h : ∀ key ∈ present, ∀ cf, k.lookup key = some cf →
      scanColumns (c.columns ksname key) (columnsByName cf) = []) :
    (presentLoop rt k ksname c present tr).1 = tr := by
  induction present generalizing tr with
  | nil => simp [presentLoop]
  | cons key rest ih =>
    have hrest : ∀ key2 ∈ rest, ∀ cf, k.lookup key2 = some cf →
        scanColumns (c.columns ksname key2) (columnsByName cf) = [] :=
      fun key2 h2 => h key2 (List.mem_cons_of_mem _ h2)
    cases hl : k.lookup key with
    | none => rw [presentLoop_cons_absent rt k ksname c key rest tr hl, ih _ hrest]
    | some cf =>
      cases hq : c.columnsErr ksname key with
      | some err => rw [presentLoop_cons_query_err rt k ksname c key rest tr cf err hl hq]
      | none =>
        rw [presentLoop_cons_present rt k ksname c key rest tr cf hl hq]
        have hm : missingColumns rt ksname c key cf = [] := by
          simp [missingColumns, h key (List.mem_cons_self _ _) cf hl, rangeValues_nil]
        rw [hm]
        simp only [alterLoop]
        exact ih _ hrest

/-! ## `Migrate`: the whole pass -/

theorem migrate_eq (rt : Runtime) (k : Keyspace) (ksname : String) (c : Session)
    (hfam : c.columnfamiliesErr ksname = none) :
    Migrate rt k ksname c =
      match createLoop k c (missingFamilies rt k ksname c) [] with
      | (tr, some err) => (tr, Outcome.error err)
      | (tr, none) =>
        match presentLoop rt k ksname c (c.columnfamilies ksname) tr with
        | (tr, some err) => (tr, Outcome.error err)
        | (tr, none) => (tr, Outcome.ok) := by
  simp only [Migrate, familiesLoop_mapkeys, hfam, missingFamilies]

theorem migrate_panics (rt : Runtime) (k : Keyspace) (ksname : String) (c : Session)
    (err : Error) (hfam : c.columnfamiliesErr ksname = some err) :
    Migrate rt k ksname c =
      ([], Outcome.panic ("Could not query column families: " ++ err)) := by
  simp only [Migrate, familiesLoop_mapkeys, hfam]

theorem mem_missingFamilies (rt : Runtime) (k : Keyspace) (ksname : String) (c : Session)
    (n : String) :
    n ∈ missingFamilies rt k ksname c ↔ n ∈ k.names ∧ n ∉ c.columnfamilies ksname := by
  simp [missingFamilies, mapkeys, (rt.perm RangeLoop.keyspace k.names).mem_iff]

theorem missingFamilies_perm (rt : Runtime) (k : Keyspace) (ksname : String) (c : Session) :
    (missingFamilies rt k ksname c).Perm
      (k.names.filter (fun n => decide (n ∉ c.columnfamilies ksname))) :=
  List.Perm.filter _ (rt.perm RangeLoop.keyspace k.names)

/-- When the listing and the column queries succeed, `create` succeeds on
every missing family and the executor accepts every statement, `Migrate`
returns `nil` after creating the missing families and then adding the missing
columns, family by family in the order of the listing. -/
theorem migrate_succeeds (rt : Runtime) (k : Keyspace) (ksname : String) (c : Session)
    (hfam : c.columnfamiliesErr ksname = none)
    (hcol : ∀ key ∈ c.columnfamilies ksname, c.columnsErr ksname key = none)
    (hcreate : ∀ n ∈ k.names, n ∉ c.columnfamilies ksname → (create n (k.get n)).2 = none)
    (hexec : ∀ done q, c.exec done q = none) :
    Migrate rt k ksname c =
      ((missingFamilies rt k ksname c).map (createCall k) ++
        (c.columnfamilies ksname).flatMap (patchCalls rt k ksname c), Outcome.ok) := by
  rw [migrate_eq rt k ksname c hfam, createLoop_succeeds k c _ [] ?_ hexec]
  · simp only [List.nil_append]
    rw [presentLoop_succeeds rt k ksname c _ _ hcol hexec]
  · intro key hkey
    obtain ⟨h1, h2⟩ := (mem_missingFamilies rt k ksname c key).mp hkey
    exact hcreate key h1 h2

/-- A run of `Migrate` that returns `nil` has created the missing families and
then added the missing columns, family by family in the order of the
listing. -/
theorem migrate_ok_inv (rt : Runtime) (k : Keyspace) (ksname : String) (c : Session)
    (tr : List Call) (h : Migrate rt k ksname c = (tr, Outcome.ok)) :
    tr = (missingFamilies rt k ksname c).map (createCall k) ++
      (c.columnfamilies ksname).flatMap (patchCalls rt k ksname c) := by
  cases hfam : c.columnfamiliesErr ksname with
  | some err => rw [migrate_panics rt k ksname c err hfam] at h; simp at h
  | none =>
    rw [migrate_eq rt k ksname c hfam] at h
    rcases hcl : createLoop k c (missingFamilies rt k ksname c) [] with ⟨tr1, e1⟩
    rw [hcl] at h
    cases e1 with
    | some err => simp at h
    | none =>
      simp only at h
      rcases hpl : presentLoop rt k ksname c (c.columnfamilies ksname) tr1 with ⟨tr2, e2⟩
      rw [hpl] at h
      cases e2 with
      | some err => simp at h
      | none =>
        simp only [Prod.mk.injEq, and_true] at h
        rw [← h, presentLoop_ok_inv rt k ksname c _ tr1 tr2 hpl,
          (createLoop_ok_inv k c _ [] tr1 hcl).1]
        simp

theorem createCall_kind (k : Keyspace) (key : String) : (createCall k key).kind = Kind.create :=
  rfl

theorem patchCalls_kind (rt : Runtime) (k : Keyspace) (ksname : String) (c : Session)
    (key : String) (e : Call) (h : e ∈ patchCalls rt k ksname c key) :
    e.kind = Kind.alter ∧ e.key = key := by
  unfold patchCalls at h
  cases hl : k.lookup key with
  | none => rw [hl] at h; simp at h
  | some cf =>
    rw [hl] at h
    obtain ⟨col, _, rfl⟩ := List.mem_map.mp h
    exact ⟨rfl, rfl⟩

theorem filter_create_creates (k : Keyspace) (ms : List String) :
    (ms.map (createCall k)).filter (fun e => decide (e.kind = Kind.create)) =
      ms.map (createCall k) := by
  rw [List.filter_eq_self]
  intro e he
  obtain ⟨key, _, rfl⟩ := List.mem_map.mp he
  simp [createCall]

theorem filter_create_patches (rt : Runtime) (k : Keyspace) (ksname : String) (c : Session)
    (present : List String) :
    (present.flatMap (patchCalls rt k ksname c)).filter
      (fun e => decide (e.kind = Kind.create)) = [] := by
  rw [List.filter_eq_nil_iff]
  intro e he
  obtain ⟨key, _, h2⟩ := List.mem_flatMap.mp he
  simp [(patchCalls_kind rt k ksname c key e h2).1]

/-! ## `Migrate`: what is created -/

/-- C5: for every desired keyspace and every live listing, when the listing
and the column queries succeed, `create` succeeds on every missing family and
the executor accepts every statement, the `CREATE` calls `Migrate` makes are
exactly one call with the statement `create(n, k[n])` for each name `n` of `k`
that the listing does not name (in the order `range` yields the names), and no
`CREATE` call is made for a name of the listing. -/
theorem migrate_creates_missing (rt : Runtime) (k : Keyspace) (ksname : String) (c : Session)
    (hfam : c.columnfamiliesErr ksname = none)
    (hcol : ∀ key ∈ c.columnfamilies ksname, c.columnsErr ksname key = none)
    (hcreate : ∀ n ∈ k.names, n ∉ c.columnfamilies ksname → (create n (k.get n)).2 = none)
    (hexec : ∀ done q, c.exec done q = none) :
    ((mapkeys rt k).filter (fun n => decide (n ∉ c.columnfamilies ksname))).Perm
        (k.names.filter (fun n => decide (n ∉ c.columnfamilies ksname))) ∧
    (Migrate rt k ksname c).1.filter (fun e => decide (e.kind = Kind.create)) =
      ((mapkeys rt k).filter (fun n => decide (n ∉ c.columnfamilies ksname))).map
        (fun n => (⟨Kind.create, n, none, (create n (k.get n)).1⟩ : Call)) ∧
    (∀ e ∈ (Migrate rt k ksname c).1, e.kind = Kind.create → e.key ∉ c.columnfamilies ksname) := by
  have hm := migrate_succeeds rt k ksname c hfam hcol hcreate hexec
  refine ⟨missingFamilies_perm rt k ksname c, ?_, ?_⟩
  · rw [hm]
    simp only [List.filter_append, filter_create_creates, filter_create_patches,
      List.append_nil]
    rfl
  · intro e he hkind
    rw [hm] at he
    rcases List.mem_append.mp he with h1 | h1
    · obtain ⟨n, hn, rfl⟩ := List.mem_map.mp h1
      exact ((mem_missingFamilies rt k ksname c n).mp hn).2
    · obtain ⟨key, _, h2⟩ := List.mem_flatMap.mp h1
      rw [(patchCalls_kind rt k ksname c key e h2).1] at hkind
      exact absurd hkind (by decide)

/-- C5, at the desired keyspace `{users, events}` against the live keyspace
`{users}`: the only `CREATE` call creates `events`. -/
theorem migrate_creates_missing_witness :
    (Migrate inOrder desired "app" liveUsers).1.filter (fun e => decide (e.kind = Kind.create)) =
      [⟨Kind.create, "events", none,
        "CREATE COLUMNFAMILY events (\"id\" uuid, \"ts\" timestamp, \"payload\" text, " ++
          "PRIMARY KEY (\"id\", \"ts\"))"⟩] :=
  (migrate_creates_missing inOrder desired "app" liveUsers rfl (fun _ _ => rfl)
    (by decide) (fun _ _ => rfl)).2.1

/-- C9 fails as stated: with the valid family `events` and the family
`broken` (no columns), both missing, and `events` visited first, `Migrate`
executes the `CREATE` of `events` before it fails on `broken`. -/
theorem migrate_invalid_counterexample :
    Migrate inOrder desiredBroken "app" liveEmpty =
      ([⟨Kind.create, "events", none,
        "CREATE COLUMNFAMILY events (\"id\" uuid, \"ts\" timestamp, \"payload\" text, " ++
          "PRIMARY KEY (\"id\", \"ts\"))"⟩],
        Outcome.error "No columns defined") ∧
    (Migrate inOrder desiredBroken "app" liveEmpty).1 ≠ [] := by
  decide

/-! ## `Migrate`: an invalid desired family -/

theorem lookup_mem_names (k : Keyspace) (n : String) (cf : ColumnFamily)
    (h : k.lookup n = some cf) : n ∈ k.names ∧ k.get n = cf := by
  refine ⟨?_, by simp [Keyspace.get, h]⟩
  unfold Keyspace.lookup at h
  unfold Keyspace.names
  generalize k.entries = l at h
  induction l with
  | nil => simp at h
  | cons p rest ih =>
    obtain ⟨a, b⟩ := p
    by_cases hn : n = a
    · simp [hn]
    · have hne : (n == a) = false := by simp [hn]
      simp only [List.lookup_cons, hne] at h
      simp [ih h]

theorem create_fails_with (n : String) (cf : ColumnFamily)
    (h : cf.Columns = [] ∨ ∀ col ∈ cf.Columns, col.PKey = false) :
    create n cf = ("", some "No columns defined") ∨
    create n cf = ("", some ("Column family defines no primary keys: " ++ n)) := by
  by_cases h1 : cf.Columns = []
  · exact Or.inl (create_no_columns n cf h1)
  · rcases h with h | h
    · exact absurd h h1
    · refine Or.inr (create_no_pkey n cf h1 ?_)
      rw [List.filter_eq_nil_iff]
      intro col hmem
      simp [h col hmem]

theorem create_error_cases (n : String) (cf : ColumnFamily) (err : Error)
    (h : (create n cf).2 = some err) :
    create n cf = ("", some err) ∧
      (err = "No columns defined" ∨ err = "Column family defines no primary keys: " ++ n) := by
  by_cases h1 : cf.Columns = []
  · rw [create_no_columns n cf h1] at h ⊢
    simp only [Option.some.injEq] at h
    subst h
    exact ⟨rfl, Or.inl rfl⟩
  · by_cases h2 : cf.Columns.filter (fun col => col.PKey) = []
    · rw [create_no_pkey n cf h1 h2] at h ⊢
      simp only [Option.some.injEq] at h
      subst h
      exact ⟨rfl, Or.inr rfl⟩
    · rw [create_eq n cf h1 h2] at h
      simp at h

theorem split_at_first_failure (l : List String) (p : String → Prop)
    (h : ∃ x ∈ l, ¬ p x) :
    ∃ pre bad post, l = pre ++ bad :: post ∧ (∀ x ∈ pre, p x) ∧ ¬ p bad := by
  induction l with
  | nil =>
    obtain ⟨x, hx, _⟩ := h
    exact absurd hx (List.not_mem_nil _)
  | cons a rest ih =>
    by_cases ha : p a
    · have hrest : ∃ x ∈ rest, ¬ p x := by
        obtain ⟨x, hx, hpx⟩ := h
        rcases List.mem_cons.mp hx with h1 | h1
        · rw [h1] at hpx; exact absurd ha hpx
        · exact ⟨x, h1, hpx⟩
      obtain ⟨pre, bad, post, h1, h2, h3⟩ := ih hrest
      refine ⟨a :: pre, bad, post, by simp [h1], ?_, h3⟩
      intro x hx
      rcases List.mem_cons.mp hx with h4 | h4
      · rw [h4]; exact ha
      · exact h2 x h4
    · exact ⟨[], a, rest, rfl, fun x hx => absurd hx (List.not_mem_nil _), ha⟩

/-- C9, amended: an invalid desired family is rejected when the `missing`
loop reaches it. When the listing succeeds, the executor accepts every
statement and some family of `k` that the listing does not name has no
columns or no primary-key column, the missing families (in the order `range`
yields them) split into the valid ones `pre` visited first, the first invalid
one `bad`, and the rest: `Migrate` returns the schema-definition error of
`create` on `bad`, and the statements it has executed are exactly the `CREATE`
statements of `pre`, none when `bad` is visited first. No `ALTER` is
executed and nothing is created after `bad`. -/
theorem migrate_invalid_rejected (rt : Runtime) (k : Keyspace) (ksname : String) (c : Session)
    (hfam : c.columnfamiliesErr ksname = none)
    (hexec : ∀ done q, c.exec done q = none)
    (hbad : ∃ n cf, k.lookup n = some cf ∧ n ∉ c.columnfamilies ksname ∧
      (cf.Columns = [] ∨ ∀ col ∈ cf.Columns, col.PKey = false)) :
    ∃ pre bad post err,
      (mapkeys rt k).filter (fun n => decide (n ∉ c.columnfamilies ksname)) =
        pre ++ bad :: post ∧
      (∀ n ∈ pre, (create n (k.get n)).2 = none) ∧
      create bad (k.get bad) = ("", some err) ∧
      (err = "No columns defined" ∨
        err = "Column family defines no primary keys: " ++ bad) ∧
      Migrate rt k ksname c =
        (pre.map (fun n => (⟨Kind.create, n, none, (create n (k.get n)).1⟩ : Call)),
          Outcome.error err) := by
  obtain ⟨n, cf, hl, hn, hinv⟩ := hbad
  obtain ⟨hnames, hget⟩ := lookup_mem_names k n cf hl
  have hex : ∃ x ∈ missingFamilies rt k ksname c, ¬ (create x (k.get x)).2 = none := by
    refine ⟨n, (mem_missingFamilies rt k ksname c n).mpr ⟨hnames, hn⟩, ?_⟩
    rw [hget]
    rcases create_fails_with n cf hinv with h | h <;> simp [h]
  obtain ⟨pre, bad, post, hsplit, hpre, hfail⟩ :=
    split_at_first_failure _ (fun x => (create x (k.get x)).2 = none) hex
  cases herr : (create bad (k.get bad)).2 with
  | none => exact absurd herr hfail
  | some err =>
    obtain ⟨h1, h2⟩ := create_error_cases bad (k.get bad) err herr
    refine ⟨pre, bad, post, err, hsplit, hpre, h1, h2, ?_⟩
    rw [migrate_eq rt k ksname c hfam, hsplit,
      createLoop_stops k c pre bad post [] err hpre herr hexec]
    rfl

/-- C9, amended, at the desired keyspace `{events, broken}` against an empty
live keyspace, `events` visited first. -/
theorem migrate_invalid_rejected_witness :
    ∃ pre bad post err,
      (mapkeys inOrder desiredBroken).filter
          (fun n => decide (n ∉ liveEmpty.columnfamilies "app")) = pre ++ bad :: post ∧
      (∀ n ∈ pre, (create n (desiredBroken.get n)).2 = none) ∧
      create bad (desiredBroken.get bad) = ("", some err) ∧
      (err = "No columns defined" ∨
        err = "Column family defines no primary keys: " ++ bad) ∧
      Migrate inOrder desiredBroken "app" liveEmpty =
        (pre.map (fun n => (⟨Kind.create, n, none, (create n (desiredBroken.get n)).1⟩ : Call)),
          Outcome.error err) :=
  migrate_invalid_rejected inOrder desiredBroken "app" liveEmpty rfl (fun _ _ => rfl)
    ⟨"broken", ⟨[], [], []⟩, by decide, by decide, Or.inl rfl⟩

/-! ## The map of `columnsByName` -/

theorem lookup_none_of_not_mem {β : Type} (m : List (String × β)) (key : String)
    (h : key ∉ m.map Prod.fst) : m.lookup key = none := by
  induction m with
  | nil => rfl
  | cons p rest ih =>
    obtain ⟨a, b⟩ := p
    simp only [List.map_cons, List.mem_cons, not_or] at h
    have hne : (key == a) = false := by simp [h.1]
    simp only [List.lookup_cons, hne]
    exact ih h.2

theorem lookup_some_of_mem (m : ColumnMap) (key : String) (h : key ∈ m.map Prod.fst) :
    ∃ v, m.lookup key = some v ∧ (key, v) ∈ m := by
  induction m with
  | nil => simp at h
  | cons p rest ih =>
    obtain ⟨a, b⟩ := p
    by_cases hk : key = a
    · subst hk
      exact ⟨b, by simp [List.lookup_cons], List.mem_cons_self _ _⟩
    · have hne : (key == a) = false := by simp [hk]
      have hrest : key ∈ rest.map Prod.fst := by
        simp only [List.map_cons, List.mem_cons] at h
        rcases h with h | h
        · exact absurd h hk
        · exact h
      obtain ⟨v, h1, h2⟩ := ih hrest
      exact ⟨v, by simp only [List.lookup_cons, hne, h1], List.mem_cons_of_mem _ h2⟩

theorem lookup_isSome_iff (m : ColumnMap) (key : String) :
    (m.lookup key).isSome = true ↔ key ∈ m.map Prod.fst := by
  constructor
  · intro h
    by_contra hn
    rw [lookup_none_of_not_mem m key hn] at h
    simp at h
  · intro h
    obtain ⟨v, h1, _⟩ := lookup_some_of_mem m key h
    simp [h1]

theorem lookup_of_mem_nodup (m : ColumnMap) (h : (m.map Prod.fst).Nodup) (p : String × Column)
    (hp : p ∈ m) : m.lookup p.1 = some p.2 := by
  induction m with
  | nil => simp at hp
  | cons q rest ih =>
    obtain ⟨a, b⟩ := q
    simp only [List.map_cons, List.nodup_cons] at h
    rcases List.mem_cons.mp hp with h1 | h1
    · subst h1
      simp [List.lookup_cons]
    · have hne : (p.1 == a) = false := by
        simp only [beq_eq_false_iff_ne, ne_eq]
        intro heq
        apply h.1
        rw [← heq]
        exact List.mem_map.mpr ⟨p, h1, rfl⟩
      simp only [List.lookup_cons, hne]
      exact ih h.2 h1

/-- The scan of the live column names leaves the entries whose name is not
live. -/
theorem scanColumns_eq_filter (live : List String) (m : ColumnMap) :
    scanColumns live m = m.filter (fun p => decide (p.1 ∉ live)) := by
  induction live generalizing m with
  | nil => simp [scanColumns]
  | cons name rest ih =>
    by_cases h : (m.lookup name).isSome = true
    · simp only [scanColumns, h, if_true, ih, ColumnMap.delete, List.filter_filter]
      apply List.filter_congr
      intro p _
      by_cases hp : p.1 = name <;> simp [hp]
    · simp only [scanColumns, h, if_false, ih]
      apply List.filter_congr
      intro p hp
      have hne : p.1 ≠ name := by
        intro heq
        apply h
        rw [lookup_isSome_iff]
        exact List.mem_map.mpr ⟨p, hp, heq⟩
      simp [hne]

theorem mem_set (m : ColumnMap) (key : String) (e : Column) (p : String × Column)
    (h : p ∈ m.set key e) : p ∈ m ∨ p = (key, e) := by
  unfold ColumnMap.set at h
  split_ifs at h with hs
  · obtain ⟨q, hq, hqp⟩ := List.mem_map.mp h
    split_ifs at hqp with hk
    · exact Or.inr hqp.symm
    · rw [← hqp]; exact Or.inl hq
  · rcases List.mem_append.mp h with h1 | h1
    · exact Or.inl h1
    · exact Or.inr (List.mem_singleton.mp h1)

theorem mem_columnsByNameLoop (cols : List Column) (m : ColumnMap) (p : String × Column)
    (h : p ∈ columnsByNameLoop cols m) : p ∈ m ∨ (p.2 ∈ cols ∧ p.1 = p.2.Name) := by
  induction cols generalizing m with
  | nil => exact Or.inl h
  | cons e rest ih =>
    rcases ih _ h with h1 | h1
    · rcases mem_set m e.Name e p h1 with h2 | h2
      · exact Or.inl h2
      · rw [h2]
        exact Or.inr ⟨List.mem_cons_self _ _, rfl⟩
    · exact Or.inr ⟨List.mem_cons_of_mem _ h1.1, h1.2⟩

/-- Every entry of the map of `columnsByName` is a column of the family under
its own name. -/
theorem mem_columnsByName (cf : ColumnFamily) (p : String × Column)
    (h : p ∈ columnsByName cf) : p.2 ∈ cf.Columns ∧ p.1 = p.2.Name := by
  rcases mem_columnsByNameLoop cf.Columns [] p h with h1 | h1
  · exact absurd h1 (List.not_mem_nil _)
  · exact h1

theorem columnsByNameLoop_nodup (cols : List Column) (m : ColumnMap)
    (hnd : (cols.map (fun e => e.Name)).Nodup)
    (hdis : ∀ e ∈ cols, e.Name ∉ m.map Prod.fst) :
    columnsByNameLoop cols m = m ++ cols.map (fun e => (e.Name, e)) := by
  induction cols generalizing m with
  | nil => simp [columnsByNameLoop]
  | cons e rest ih =>
    simp only [List.map_cons, List.nodup_cons] at hnd
    have hnone : ¬ (m.lookup e.Name).isSome = true := by
      rw [lookup_isSome_iff]
      exact hdis e (List.mem_cons_self _ _)
    have hset : m.set e.Name e = m ++ [(e.Name, e)] := by
      simp [ColumnMap.set, hnone]
    simp only [columnsByNameLoop, hset]
    rw [ih _ hnd.2]
    · simp
    · intro e2 he2
      simp only [List.map_append, List.map_cons, List.map_nil, List.mem_append,
        List.mem_singleton, not_or]
      refine ⟨hdis e2 (List.mem_cons_of_mem _ he2), ?_⟩
      intro heq
      apply hnd.1
      rw [← heq]
      exact List.mem_map.mpr ⟨e2, he2, rfl⟩

/-- With pairwise distinct column names the map holds every column, in the
order of `Columns`. -/
theorem columnsByName_nodup (cf : ColumnFamily)
    (hnd : (cf.Columns.map (fun e => e.Name)).Nodup) :
    columnsByName cf = cf.Columns.map (fun e => (e.Name, e)) := by
  rw [columnsByName, columnsByNameLoop_nodup cf.Columns [] hnd (by simp)]
  simp

theorem rangeValues_perm (rt : Runtime) (key : String) (m : ColumnMap)
    (h : (m.map Prod.fst).Nodup) :
    (rangeValues rt key m).Perm (m.map Prod.snd) := by
  have h1 : (rangeValues rt key m).Perm
      ((m.map Prod.fst).filterMap (fun name => m.lookup name)) :=
    List.Perm.filterMap _ (rt.perm _ _)
  have h2 : (m.map Prod.fst).filterMap (fun key => m.lookup key) = m.map Prod.snd := by
    rw [List.filterMap_map, ← List.filterMap_eq_map]
    apply List.filterMap_congr
    intro p hp
    simp [lookup_of_mem_nodup m h p hp]
  rw [h2] at h1
  exact h1

theorem mem_rangeValues (rt : Runtime) (fam : String) (m : ColumnMap) (v : Column)
    (h : v ∈ rangeValues rt fam m) : ∃ key, (key, v) ∈ m := by
  obtain ⟨key, hkey, hl⟩ := List.mem_filterMap.mp h
  have hk : key ∈ m.map Prod.fst := (rt.perm _ _).mem_iff.mp hkey
  obtain ⟨v2, h1, h2⟩ := lookup_some_of_mem m key hk
  rw [h1] at hl
  simp only [Option.some.injEq] at hl
  rw [← hl]
  exact ⟨key, h2⟩

theorem rangeValues_covers (rt : Runtime) (fam : String) (m : ColumnMap)
    (p : String × Column) (h : p ∈ m) :
    ∃ v ∈ rangeValues rt fam m, (p.1, v) ∈ m := by
  have hk : p.1 ∈ m.map Prod.fst := List.mem_map.mpr ⟨p, h, rfl⟩
  obtain ⟨v, h1, h2⟩ := lookup_some_of_mem m p.1 hk
  refine ⟨v, List.mem_filterMap.mpr ⟨p.1, (rt.perm _ _).mem_iff.mpr hk, h1⟩, h2⟩

/-- With pairwise distinct column names, the columns `Migrate` finds missing
are, in some order, the columns of the family whose name is not live. -/
theorem missingColumns_perm (rt : Runtime) (ksname : String) (c : Session) (key : String)
    (cf : ColumnFamily) (hnd : (cf.Columns.map (fun e => e.Name)).Nodup) :
    (missingColumns rt ksname c key cf).Perm
      (cf.Columns.filter (fun col => decide (col.Name ∉ c.columns ksname key))) := by
  have hm : scanColumns (c.columns ksname key) (columnsByName cf) =
      (cf.Columns.filter (fun col => decide (col.Name ∉ c.columns ksname key))).map
        (fun e => (e.Name, e)) := by
    rw [scanColumns_eq_filter, columnsByName_nodup cf hnd, List.filter_map]
    rfl
  have hkeys : ((scanColumns (c.columns ksname key) (columnsByName cf)).map Prod.fst).Nodup := by
    rw [hm, List.map_map]
    exact (List.filter_sublist _).map _ |>.nodup hnd
  have h := rangeValues_perm rt key _ hkeys
  have h2 : (scanColumns (c.columns ksname key) (columnsByName cf)).map Prod.snd =
      cf.Columns.filter (fun col => decide (col.Name ∉ c.columns ksname key)) := by
    rw [hm, List.map_map]
    simp [Function.comp_def]
  rw [h2] at h
  exact h

/-- Every column `Migrate` finds missing is a column of the family. -/
theorem mem_missingColumns (rt : Runtime) (ksname : String) (c : Session) (key : String)
    (cf : ColumnFamily) (col : Column) (h : col ∈ missingColumns rt ksname c key cf) :
    col ∈ cf.Columns := by
  obtain ⟨name, hmem⟩ := mem_rangeValues rt key _ col h
  rw [scanColumns_eq_filter] at hmem
  exact (mem_columnsByName cf (name, col) (List.mem_filter.mp hmem).1).1

/-! ## `Migrate`: what is added -/

theorem filter_key_flatMap (f : String → List Call) (hf : ∀ a, ∀ e ∈ f a, e.key = a)
    (key : String) (l : List String) (hcount : l.count key = 1) :
    (l.flatMap f).filter (fun e => decide (e.key = key)) = f key := by
  have hnone : ∀ l2 : List String, key ∉ l2 →
      (l2.flatMap f).filter (fun e => decide (e.key = key)) = [] := by
    intro l2 hl2
    rw [List.filter_eq_nil_iff]
    intro e he
    obtain ⟨a, ha, hea⟩ := List.mem_flatMap.mp he
    have : e.key ≠ key := by
      rw [hf a e hea]
      intro heq
      exact hl2 (heq ▸ ha)
    simp [this]
  induction l with
  | nil => simp at hcount
  | cons a rest ih =>
    rw [List.flatMap_cons, List.filter_append]
    by_cases ha : a = key
    · subst ha
      have hrest : a ∉ rest := by
        rw [← List.count_eq_zero]
        simp only [List.count_cons_self] at hcount
        omega
      rw [hnone rest hrest, List.append_nil, List.filter_eq_self]
      intro e he
      simp [hf a e he]
    · have hcount2 : rest.count key = 1 := by
        rw [List.count_cons] at hcount
        simpa [ha] using hcount
      rw [ih hcount2]
      have : (f a).filter (fun e => decide (e.key = key)) = [] := by
        rw [List.filter_eq_nil_iff]
        intro e he
        simp [hf a e he, ha]
      rw [this, List.nil_append]

/-- C6 fails as stated: `users` (desired `id`, `name`, `email`) is live with
`id` and `name`, every query succeeds and the executor accepts every
statement, but the desired keyspace also has the missing family `broken`
without columns. `Migrate` fails on `broken` in its first loop and executes
nothing: the one `ALTER TABLE users ADD "email" text` of the claim is not
issued. -/
theorem migrate_adds_missing_columns_counterexample :
    liveUsers.columnfamiliesErr "app" = none ∧
    (∀ key, liveUsers.columnsErr "app" key = none) ∧
    (∀ done q, liveUsers.exec done q = none) ∧
    desiredUsersBroken.lookup "users" = some usersFamily ∧
    (liveUsers.columnfamilies "app").count "users" = 1 ∧
    (usersFamily.Columns.map (fun e => e.Name)).Nodup ∧
    (usersFamily.Columns.filter (fun col => decide (col.Name ∉ liveUsers.columns "app" "users"))).map
        (fun col => "ALTER TABLE " ++ "users" ++ " ADD " ++ quote col.Name ++ " " ++ col.CType) =
      ["ALTER TABLE users ADD \"email\" text"] ∧
    Migrate inOrder desiredUsersBroken "app" liveUsers =
      ([], Outcome.error "No columns defined") :=
  ⟨rfl, fun _ => rfl, fun _ _ => rfl, by decide, by decide, by decide, by decide, by decide⟩

/-- C6, amended: for every desired column family `cf` that the live listing
names once, with pairwise distinct column names, when the listing and the
column queries succeed, `create` succeeds on every missing family and the
executor accepts every statement, the calls `Migrate` makes for `cf` are, in
some order, exactly one `ALTER TABLE <key> ADD "<Name>" <CType>` (table name
unquoted, column name through `%q`, type verbatim) for each desired column
whose name is not among the live column names of `cf`, and no other call. -/
theorem migrate_adds_missing_columns (rt : Runtime) (k : Keyspace) (ksname : String)
    (c : Session) (key : String) (cf : ColumnFamily)
    (hfam : c.columnfamiliesErr ksname = none)
    (hcol : ∀ name ∈ c.columnfamilies ksname, c.columnsErr ksname name = none)
    (hcreate : ∀ n ∈ k.names, n ∉ c.columnfamilies ksname → (create n (k.get n)).2 = none)
    (hexec : ∀ done q, c.exec done q = none)
    (hk : k.lookup key = some cf)
    (hlive : (c.columnfamilies ksname).count key = 1)
    (hnd : (cf.Columns.map (fun e => e.Name)).Nodup) :
    ((Migrate rt k ksname c).1.filter (fun e => decide (e.key = key))).Perm
      ((cf.Columns.filter (fun col => decide (col.Name ∉ c.columns ksname key))).map
        (fun col => (⟨Kind.alter, key, some col,
          "ALTER TABLE " ++ key ++ " ADD " ++ quote col.Name ++ " " ++ col.CType⟩ : Call))) := by
  rw [migrate_succeeds rt k ksname c hfam hcol hcreate hexec]
  have hmem : key ∈ c.columnfamilies ksname := by
    rw [← List.count_pos_iff]
    omega
  have hcreates : ((missingFamilies rt k ksname c).map (createCall k)).filter
      (fun e => decide (e.key = key)) = [] := by
    rw [List.filter_eq_nil_iff]
    intro e he
    obtain ⟨n, hn, rfl⟩ := List.mem_map.mp he
    have hn2 := ((mem_missingFamilies rt k ksname c n).mp hn).2
    have : n ≠ key := fun heq => hn2 (heq ▸ hmem)
    simp [createCall, this]
  simp only [List.filter_append, hcreates, List.nil_append]
  rw [filter_key_flatMap _ (fun a e he => (patchCalls_kind rt k ksname c a e he).2) key _ hlive]
  simp only [patchCalls, hk]
  exact (missingColumns_perm rt ksname c key cf hnd).map _

/-- C6, amended, at the desired keyspace `{users, events}` against the live
keyspace `{users}` with the columns `id` and `name`: the one call for `users`
is `ALTER TABLE users ADD "email" text`. -/
theorem migrate_adds_missing_columns_witness :
    ((Migrate inOrder desired "app" liveUsers).1.filter (fun e => decide (e.key = "users"))).Perm
      [⟨Kind.alter, "users", some ⟨"email", "text", false⟩,
        "ALTER TABLE users ADD \"email\" text"⟩] :=
  migrate_adds_missing_columns inOrder desired "app" liveUsers "users" usersFamily rfl
    (fun _ _ => rfl) (by decide) (fun _ _ => rfl) (by decide) (by decide) (by decide)

/-! ## `Migrate`: nothing but additions -/

theorem createLoop_congr (k : Keyspace) (c1 c2 : Session) (h : c1.exec = c2.exec)
    (ms : List String) (tr : List Call) :
    createLoop k c1 ms tr = createLoop k c2 ms tr := by
  induction ms generalizing tr with
  | nil => rfl
  | cons key rest ih => simp only [createLoop, h, ih]

theorem alterLoop_congr (c1 c2 : Session) (h : c1.exec = c2.exec) (key : String)
    (es : List Column) (tr : List Call) :
    alterLoop c1 key es tr = alterLoop c2 key es tr := by
  induction es generalizing tr with
  | nil => rfl
  | cons e rest ih => simp only [alterLoop, h, ih]

theorem missingFamilies_pruned (rt : Runtime) (k : Keyspace) (ksname : String) (c : Session) :
    missingFamilies rt k ksname (pruned k c) = missingFamilies rt k ksname c := by
  unfold missingFamilies
  apply List.filter_congr
  intro n hn
  have hn2 : n ∈ k.names := (rt.perm RangeLoop.keyspace k.names).mem_iff.mp hn
  simp [pruned, hn2]

theorem missingColumns_pruned (rt : Runtime) (k : Keyspace) (ksname : String) (c : Session)
    (key : String) (cf : ColumnFamily) (hk : k.lookup key = some cf) :
    missingColumns rt ksname (pruned k c) key cf = missingColumns rt ksname c key cf := by
  have hget : k.get key = cf := (lookup_mem_names k key cf hk).2
  unfold missingColumns
  congr 1
  rw [scanColumns_eq_filter, scanColumns_eq_filter]
  apply List.filter_congr
  intro p hp
  obtain ⟨h1, h2⟩ := mem_columnsByName cf p hp
  have hname : p.1 ∈ cf.Columns.map (fun col => col.Name) :=
    List.mem_map.mpr ⟨p.2, h1, h2.symm⟩
  simp only [pruned, hget, List.mem_filter, hname, decide_True, and_true]

theorem presentLoop_pruned (rt : Runtime) (k : Keyspace) (ksname : String) (c : Session)
    (present : List String) (tr : List Call) :
    presentLoop rt k ksname (pruned k c) (present.filter (fun name => decide (name ∈ k.names))) tr =
      presentLoop rt k ksname c present tr := by
  induction present generalizing tr with
  | nil => rfl
  | cons key rest ih =>
    cases hl : k.lookup key with
    | none =>
      rw [presentLoop_cons_absent rt k ksname c key rest tr hl, ← ih tr]
      by_cases hmem : key ∈ k.names
      · simp only [List.filter_cons, hmem, decide_True, if_true]
        rw [presentLoop_cons_absent rt k ksname (pruned k c) key _ tr hl]
      · simp [List.filter_cons, hmem]
    | some cf =>
      have hmem : key ∈ k.names := (lookup_mem_names k key cf hl).1
      simp only [List.filter_cons, hmem, decide_True, if_true]
      cases hq : c.columnsErr ksname key with
      | some err =>
        rw [presentLoop_cons_query_err rt k ksname c key rest tr cf err hl hq,
          presentLoop_cons_query_err rt k ksname (pruned k c) key _ tr cf err hl hq]
      | none =>
        rw [presentLoop_cons_present rt k ksname c key rest tr cf hl hq,
          presentLoop_cons_present rt k ksname (pruned k c) key _ tr cf hl hq,
          missingColumns_pruned rt k ksname c key cf hl,
          alterLoop_congr (pruned k c) c rfl]
        rcases alterLoop c key (missingColumns rt ksname c key cf) tr with ⟨tr2, e2⟩
        cases e2 with
        | some err => rfl
        | none => exact ih tr2

/-- Whatever happens, every call of `Migrate` creates a missing family of `k`
or adds a missing column to a family the listing names. -/
theorem migrate_trace_mem (rt : Runtime) (k : Keyspace) (ksname : String) (c : Session)
    (e : Call) (he : e ∈ (Migrate rt k ksname c).1) :
    (∃ n ∈ missingFamilies rt k ksname c, e = createCall k n) ∨
    (∃ key ∈ c.columnfamilies ksname, e ∈ patchCalls rt k ksname c key) := by
  cases hfam : c.columnfamiliesErr ksname with
  | some err =>
    rw [migrate_panics rt k ksname c err hfam] at he
    exact absurd he (List.not_mem_nil _)
  | none =>
    rw [migrate_eq rt k ksname c hfam] at he
    obtain ⟨j, hj⟩ := createLoop_trace k c (missingFamilies rt k ksname c) []
    have hcreated : ∀ e2 ∈ (createLoop k c (missingFamilies rt k ksname c) []).1,
        ∃ n ∈ missingFamilies rt k ksname c, e2 = createCall k n := by
      intro e2 he2
      rw [hj, List.nil_append] at he2
      obtain ⟨n, hn, rfl⟩ := List.mem_map.mp he2
      exact ⟨n, List.mem_of_mem_take hn, rfl⟩
    rcases hcl : createLoop k c (missingFamilies rt k ksname c) [] with ⟨tr1, e1⟩
    rw [hcl] at he hcreated
    cases e1 with
    | some err => exact Or.inl (hcreated e he)
    | none =>
      simp only at he hcreated
      obtain ⟨new, h1, h2⟩ := presentLoop_trace rt k ksname c (c.columnfamilies ksname) tr1
      have he2 : e ∈ (presentLoop rt k ksname c (c.columnfamilies ksname) tr1).1 := by
        rcases hpl : presentLoop rt k ksname c (c.columnfamilies ksname) tr1 with ⟨tr2, e2⟩
        rw [hpl] at he
        cases e2 <;> exact he
      rw [h1] at he2
      rcases List.mem_append.mp he2 with h3 | h3
      · exact Or.inl (hcreated e h3)
      · exact Or.inr (h2 e h3)

/-- C8: `Migrate` is purely additive. For every desired keyspace and every
live schema, whatever fails: each call of `Migrate` is either the `CREATE`
statement `create(n, k[n])` for a name `n` of `k`, or an
`ALTER TABLE n ADD ...` for a name `n` of `k` and one of the columns declared
in `k[n]`; and the run (its calls and its result) is the same on the live
schema from which the column families that are not in `k`, and the columns
that their desired family does not declare, have been removed. -/
theorem migrate_additive (rt : Runtime) (k : Keyspace) (ksname : String) (c : Session) :
    (∀ e ∈ (Migrate rt k ksname c).1,
      (e.kind = Kind.create ∧ e.key ∈ k.names ∧ e.query = (create e.key (k.get e.key)).1) ∨
      (e.kind = Kind.alter ∧ ∃ cf col, k.lookup e.key = some cf ∧ col ∈ cf.Columns ∧
        e.query = "ALTER TABLE " ++ e.key ++ " ADD " ++ quote col.Name ++ " " ++ col.CType)) ∧
    Migrate rt k ksname (pruned k c) = Migrate rt k ksname c := by
  constructor
  · intro e he
    rcases migrate_trace_mem rt k ksname c e he with ⟨n, hn, rfl⟩ | ⟨key, _, hkey⟩
    · exact Or.inl ⟨rfl, ((mem_missingFamilies rt k ksname c n).mp hn).1, rfl⟩
    · right
      unfold patchCalls at hkey
      cases hl : k.lookup key with
      | none => rw [hl] at hkey; exact absurd hkey (List.not_mem_nil _)
      | some cf =>
        rw [hl] at hkey
        obtain ⟨col, hcol, rfl⟩ := List.mem_map.mp hkey
        exact ⟨rfl, cf, col, hl, mem_missingColumns rt ksname c key cf col hcol, rfl⟩
  · cases hfam : c.columnfamiliesErr ksname with
    | some err =>
      rw [migrate_panics rt k ksname c err hfam, migrate_panics rt k ksname (pruned k c) err hfam]
    | none =>
      rw [migrate_eq rt k ksname c hfam, migrate_eq rt k ksname (pruned k c) hfam,
        missingFamilies_pruned, createLoop_congr k (pruned k c) c rfl]
      rcases createLoop k c (missingFamilies rt k ksname c) [] with ⟨tr1, e1⟩
      cases e1 with
      | some err => rfl
      | none =>
        simp only
        have hp := presentLoop_pruned rt k ksname c (c.columnfamilies ksname) tr1
        simp only [pruned] at hp ⊢
        rw [hp]

/-! ## `Migrate`: a second run -/

theorem createdFamilies_of_ok (rt : Runtime) (k : Keyspace) (ksname : String) (c : Session)
    (tr : List Call) (h : Migrate rt k ksname c = (tr, Outcome.ok)) :
    createdFamilies tr = missingFamilies rt k ksname c := by
  rw [migrate_ok_inv rt k ksname c tr h]
  simp only [createdFamilies, List.filter_append, filter_create_creates, filter_create_patches,
    List.append_nil, List.map_map]
  exact List.map_id _

theorem addedColumns_of_ok (rt : Runtime) (k : Keyspace) (ksname : String) (c : Session)
    (tr : List Call) (h : Migrate rt k ksname c = (tr, Outcome.ok))
    (key : String) (hkey : key ∈ c.columnfamilies ksname) (cf : ColumnFamily)
    (hl : k.lookup key = some cf) (col : Column)
    (hcol : col ∈ missingColumns rt ksname c key cf) :
    col.Name ∈ addedColumns tr key := by
  have hmem : alterCall key col ∈ tr := by
    rw [migrate_ok_inv rt k ksname c tr h]
    apply List.mem_append_right
    refine List.mem_flatMap.mpr ⟨key, hkey, ?_⟩
    simp only [patchCalls, hl]
    exact List.mem_map.mpr ⟨col, hcol, rfl⟩
  unfold addedColumns
  refine List.mem_filterMap.mpr ⟨alterCall key col, List.mem_filter.mpr ⟨hmem, ?_⟩, rfl⟩
  simp [alterCall]

/-- C7: `Migrate` is idempotent. For every desired keyspace `k` and live
schema `c` on which `Migrate` returns `nil` after the calls `tr`, a second run
on `k` and on the live schema `applied k c tr` (the first one with every
created family listed, with exactly its desired column names, and every
added column listed in its family), under any iteration order, passes no
statement to the executor. -/
theorem migrate_idempotent (rt rt2 : Runtime) (k : Keyspace) (ksname : String) (c : Session)
    (tr : List Call) (h : Migrate rt k ksname c = (tr, Outcome.ok)) :
    (Migrate rt2 k ksname (applied k c tr)).1 = [] := by
  have hfam : c.columnfamiliesErr ksname = none := by
    cases hf : c.columnfamiliesErr ksname with
    | none => rfl
    | some err => rw [migrate_panics rt k ksname c err hf] at h; simp at h
  have hcreated := createdFamilies_of_ok rt k ksname c tr h
  have hmissing : missingFamilies rt2 k ksname (applied k c tr) = [] := by
    unfold missingFamilies
    rw [List.filter_eq_nil_iff]
    intro n hn
    have hn2 : n ∈ k.names := (rt2.perm RangeLoop.keyspace k.names).mem_iff.mp hn
    simp only [applied, hcreated, List.mem_append, decide_eq_true_eq, not_not]
    by_cases hlive : n ∈ c.columnfamilies ksname
    · exact Or.inl hlive
    · exact Or.inr ((mem_missingFamilies rt k ksname c n).mpr ⟨hn2, hlive⟩)
  have hnothing : ∀ key ∈ (applied k c tr).columnfamilies ksname, ∀ cf,
      k.lookup key = some cf →
      scanColumns ((applied k c tr).columns ksname key) (columnsByName cf) = [] := by
    intro key hkey cf hl
    rw [scanColumns_eq_filter, List.filter_eq_nil_iff]
    intro p hp
    obtain ⟨hp1, hp2⟩ := mem_columnsByName cf p hp
    simp only [decide_eq_true_eq, not_not]
    by_cases hc : key ∈ createdFamilies tr
    · simp only [applied, hc, if_true, (lookup_mem_names k key cf hl).2]
      exact List.mem_map.mpr ⟨p.2, hp1, hp2.symm⟩
    · simp only [applied, hc, if_false, List.mem_append]
      have hlisted : key ∈ c.columnfamilies ksname := by
        simp only [applied, List.mem_append] at hkey
        rcases hkey with h1 | h1
        · exact h1
        · exact absurd h1 hc
      by_cases hlive : p.1 ∈ c.columns ksname key
      · exact Or.inl hlive
      · right
        have hleft : p ∈ scanColumns (c.columns ksname key) (columnsByName cf) := by
          rw [scanColumns_eq_filter]
          exact List.mem_filter.mpr ⟨hp, by simpa using hlive⟩
        obtain ⟨v, hv1, hv2⟩ := rangeValues_covers rt key _ p hleft
        rw [scanColumns_eq_filter] at hv2
        have hname : p.1 = v.Name :=
          (mem_columnsByName cf (p.1, v) (List.mem_filter.mp hv2).1).2
        rw [hname]
        exact addedColumns_of_ok rt k ksname c tr h key hlisted cf hl v hv1
  have hfam2 : (applied k c tr).columnfamiliesErr ksname = none := hfam
  rw [migrate_eq rt2 k ksname (applied k c tr) hfam2, hmissing]
  simp only [createLoop]
  have hp := presentLoop_nothing rt2 k ksname (applied k c tr)
    ((applied k c tr).columnfamilies ksname) [] hnothing
  rcases hpl : presentLoop rt2 k ksname (applied k c tr)
    ((applied k c tr).columnfamilies ksname) [] with ⟨tr2, e2⟩
  rw [hpl] at hp
  cases e2 <;> exact hp

/-- C7, at the desired keyspace `{users, events}` against the live keyspace
`{users}` with the columns `id` and `name`: the first run creates `events`
and adds `email`, the second run executes nothing. -/
theorem migrate_idempotent_witness :
    Migrate inOrder desired "app" liveUsers =
      ([⟨Kind.create, "events", none,
          "CREATE COLUMNFAMILY events (\"id\" uuid, \"ts\" timestamp, \"payload\" text, " ++
            "PRIMARY KEY (\"id\", \"ts\"))"⟩,
        ⟨Kind.alter, "users", some ⟨"email", "text", false⟩,
          "ALTER TABLE users ADD \"email\" text"⟩], Outcome.ok) ∧
    (Migrate inOrder desired "app"
      (applied desired liveUsers (Migrate inOrder desired "app" liveUsers).1)).1 = [] :=
  ⟨by decide, migrate_idempotent inOrder inOrder desired "app" liveUsers
    (Migrate inOrder desired "app" liveUsers).1 (by decide)⟩

/-! ## `create`: the name, the two errors, the partition group -/

theorem create_ok_begins (n : String) (c : ColumnFamily) (h : (create n c).2 = none) :
    ∃ rest, (create n c).1 = "CREATE COLUMNFAMILY " ++ n ++ " (" ++ rest := by
  have h1 : c.Columns ≠ [] := by
    intro hc
    rw [create_no_columns n c hc] at h
    simp at h
  have h2 : c.Columns.filter (fun col => col.PKey) ≠ [] := by
    intro hc
    rw [create_no_pkey n c h1 hc] at h
    simp at h
  rw [create_eq n c h1 h2]
  simp only [String.append_assoc]
  exact ⟨_, rfl⟩

set_option maxRecDepth 100000 in
/-- C11 fails as stated: the statement `create` returns for the family
`events` begins with `CREATE COLUMNFAMILY events (`, the name as it is, and
not with `CREATE COLUMNFAMILY "events" (`. -/
theorem create_name_counterexample :
    (create "events" eventsFamily).2 = none ∧
    List.IsPrefix "CREATE COLUMNFAMILY events (".data (create "events" eventsFamily).1.data ∧
    ¬ List.IsPrefix "CREATE COLUMNFAMILY \"events\" (".data
        (create "events" eventsFamily).1.data := by
  decide

/-- C11, amended: the column-family name is written verbatim (`%s`), without
quotes. For every name `n` and every column family on which `create`
succeeds, the statement begins with `CREATE COLUMNFAMILY `, `n` and ` (`. -/
theorem create_name_verbatim (n : String) (c : ColumnFamily) (hok : (create n c).2 = none) :
    List.IsPrefix ("CREATE COLUMNFAMILY " ++ n ++ " (").data (create n c).1.data := by
  obtain ⟨rest, hrest⟩ := create_ok_begins n c hok
  rw [hrest, String.data_append]
  exact List.prefix_append _ _

/-- C11, amended, at the family `events`. -/
theorem create_name_verbatim_witness :
    List.IsPrefix ("CREATE COLUMNFAMILY " ++ "events" ++ " (").data
      (create "events" eventsFamily).1.data :=
  create_name_verbatim "events" eventsFamily (by decide)

theorem no_columns_ne_no_pkey (n : String) :
    ("No columns defined" : String) ≠ "Column family defines no primary keys: " ++ n := by
  intro h
  have h2 := congrArg String.data h
  rw [String.data_append] at h2
  have h3 := congrArg List.head? h2
  simp at h3

/-- C16: the empty-columns check comes first. For every name, `Ordering` and
`Partitioning`, a column family with no columns makes `create` fail with
`No columns defined`, which is not the no-primary-key error; a column family
with at least one column and no primary-key column makes it fail with
`Column family defines no primary keys: ` followed by the name. -/
theorem create_checks_columns_first (n : String) (ord : List Order) (part : List Key)
    (c : ColumnFamily) (hcols : c.Columns ≠ []) (hnopk : ∀ col ∈ c.Columns, col.PKey = false) :
    create n ⟨[], ord, part⟩ = ("", some "No columns defined") ∧
    (create n ⟨[], ord, part⟩).2 ≠ some ("Column family defines no primary keys: " ++ n) ∧
    create n c = ("", some ("Column family defines no primary keys: " ++ n)) := by
  have h1 : create n ⟨[], ord, part⟩ = ("", some "No columns defined") :=
    create_no_columns n ⟨[], ord, part⟩ rfl
  refine ⟨h1, ?_, ?_⟩
  · rw [h1]
    intro h
    simp only [Option.some.injEq] at h
    exact no_columns_ne_no_pkey n h
  · apply create_no_pkey n c hcols
    rw [List.filter_eq_nil_iff]
    intro col hmem
    simp [hnopk col hmem]

/-- C16, at the name `events`: no columns, and the one column `payload` that
is not a primary-key column. -/
theorem create_checks_columns_first_witness :
    create "events" ⟨[], [⟨"ts", "DESC"⟩], ["id"]⟩ = ("", some "No columns defined") ∧
    (create "events" ⟨[], [⟨"ts", "DESC"⟩], ["id"]⟩).2 ≠
      some ("Column family defines no primary keys: " ++ "events") ∧
    create "events" ⟨[⟨"payload", "text", false⟩], [], []⟩ =
      ("", some ("Column family defines no primary keys: " ++ "events")) :=
  create_checks_columns_first "events" [⟨"ts", "DESC"⟩] ["id"]
    ⟨[⟨"payload", "text", false⟩], [], []⟩ (by decide) (by decide)

/-- C19: with more than one `Partitioning` entry, `create` writes the
parenthesised `Partitioning` group and then, each after `", "`, the quoted
names of the primary-key columns other than the first whose names are not in
`Partitioning`, in `Columns` order; the first primary-key column is never
listed, whether or not its name is in `Partitioning`. Hence the columns listed
after the group are all the primary-key columns outside `Partitioning`
exactly when the name of the first primary-key column is in `Partitioning`. -/
theorem create_partitioned_skips_first (n : String) (c : ColumnFamily) (first : Column)
    (rest : List Column) (hpart : c.Partitioning.length > 1)
    (hpk : c.Columns.filter (fun col => col.PKey) = first :: rest) :
    create n c =
      ("CREATE COLUMNFAMILY " ++ n ++ " (" ++
        ", ".intercalate (c.Columns.map (fun col => quote col.Name ++ " " ++ col.CType)) ++
        ", PRIMARY KEY (" ++
        ("(" ++ ", ".intercalate (c.Partitioning.map quote) ++ ")" ++
          String.join ((rest.filter (fun col => decide (col.Name ∉ c.Partitioning))).map
            (fun col => ", " ++ quote col.Name))) ++
        "))" ++
        (if c.Ordering = [] then ""
          else " WITH CLUSTERING ORDER BY (" ++
            ", ".intercalate (c.Ordering.map (fun ord => quote ord.Name ++ " " ++ ord.Direction)) ++
            ")"), none) ∧
    (rest.filter (fun col => decide (col.Name ∉ c.Partitioning)) =
        (first :: rest).filter (fun col => decide (col.Name ∉ c.Partitioning)) ↔
      first.Name ∈ c.Partitioning) := by
  have h1 : c.Columns ≠ [] := by
    intro hc
    rw [hc] at hpk
    simp at hpk
  have h2 : c.Columns.filter (fun col => col.PKey) ≠ [] := by
    rw [hpk]
    exact List.cons_ne_nil _ _
  constructor
  · rw [create_eq n c h1 h2, hpk, pkeyLoop_part c.Partitioning hpart, String.empty_append]
  · by_cases hin : first.Name ∈ c.Partitioning
    · simp [List.filter_cons, hin]
    · simp only [List.filter_cons, hin, not_false_eq_true, decide_True, if_true, iff_false]
      intro heq
      have hlen := congrArg List.length heq
      simp at hlen

/-- C19, at the columns `ts`, `a`, `b` (all primary-key columns) with
`Partitioning = [a, b]` and the ordering `ts DESC`: the key clause is
`PRIMARY KEY (("a", "b"))`, without `ts`. -/
theorem create_partitioned_skips_first_witness :
    create "events"
        ⟨[⟨"ts", "timestamp", true⟩, ⟨"a", "int", true⟩, ⟨"b", "int", true⟩], [⟨"ts", "DESC"⟩],
          ["a", "b"]⟩ =
      ("CREATE COLUMNFAMILY events (\"ts\" timestamp, \"a\" int, \"b\" int, " ++
        "PRIMARY KEY ((\"a\", \"b\")))" ++ " WITH CLUSTERING ORDER BY (\"ts\" DESC)", none) :=
  (create_partitioned_skips_first "events"
    ⟨[⟨"ts", "timestamp", true⟩, ⟨"a", "int", true⟩, ⟨"b", "int", true⟩], [⟨"ts", "DESC"⟩],
      ["a", "b"]⟩
    ⟨"ts", "timestamp", true⟩ [⟨"a", "int", true⟩, ⟨"b", "int", true⟩] (by decide) rfl).1

/-! ## `Migrate`: failures -/

/-- The `missing` loop passes the families on which `create` succeeds and
whose statement the executor accepts. -/
theorem createLoop_passes (k : Keyspace) (c : Session) (pre rest : List String)
    (tr : List Call)
    (hpre : ∀ n ∈ pre, (create n (k.get n)).2 = none)
    (hexec : ∀ pre1 n post1, pre = pre1 ++ n :: post1 →
      c.exec (queries (tr ++ pre1.map (createCall k))) (create n (k.get n)).1 = none) :
    createLoop k c (pre ++ rest) tr = createLoop k c rest (tr ++ pre.map (createCall k)) := by
  induction pre generalizing tr with
  | nil => simp
  | cons a pre2 ih =>
    have h0 := hexec [] a pre2 rfl
    simp only [List.map_nil, List.append_nil] at h0
    rw [List.cons_append, createLoop_cons_ok k c a _ tr (hpre a (List.mem_cons_self _ _)) h0,
      ih _ (fun n hn => hpre n (List.mem_cons_of_mem _ hn))]
    · simp
    · intro pre1 n post1 hsplit
      have h1 := hexec (a :: pre1) n post1 (by simp [hsplit])
      simpa using h1

/-- C12: if `create` fails for a missing column family, `Migrate` aborts
there and returns that error. When the listing succeeds and the missing
families are, in iteration order, `pre`, then `bad`, then `post`, where
`create` has succeeded on every family of `pre` and the executor has accepted
their statements one after the other, and `create` fails on `bad` with `err`:
`Migrate` returns exactly `err`, and the statements it has passed to the
executor are exactly the `CREATE` statements of `pre`, in order; no `CREATE`
for a family of `post` and no `ALTER`. -/
theorem migrate_create_failure (rt : Runtime) (k : Keyspace) (ksname : String) (c : Session)
    (pre : List String) (bad : String) (post : List String) (err : Error)
    (hfam : c.columnfamiliesErr ksname = none)
    (hsplit : (mapkeys rt k).filter (fun n => decide (n ∉ c.columnfamilies ksname)) =
      pre ++ bad :: post)
    (hpre : ∀ n ∈ pre, (create n (k.get n)).2 = none)
    (hexec : ∀ pre1 n post1, pre = pre1 ++ n :: post1 →
      c.exec (pre1.map (fun m => (create m (k.get m)).1)) (create n (k.get n)).1 = none)
    (hbad : (create bad (k.get bad)).2 = some err) :
    Migrate rt k ksname c =
      (pre.map (fun n => (⟨Kind.create, n, none, (create n (k.get n)).1⟩ : Call)),
        Outcome.error err) := by
  have hexec2 : ∀ pre1 n post1, pre = pre1 ++ n :: post1 →
      c.exec (queries ([] ++ pre1.map (createCall k))) (create n (k.get n)).1 = none := by
    intro pre1 n post1 h
    have h1 := hexec pre1 n post1 h
    simpa [queries, createCall, List.map_map, Function.comp_def] using h1
  have hms : missingFamilies rt k ksname c = pre ++ bad :: post := hsplit
  rw [migrate_eq rt k ksname c hfam, hms, createLoop_passes k c pre _ [] hpre hexec2,
    createLoop_cons_err k c bad post _ err hbad]
  rfl

/-- C12, at the desired keyspace `{events, broken}` against an empty live
keyspace, `events` visited first: `events` is created, then `create` fails on
`broken`. -/
theorem migrate_create_failure_witness :
    Migrate inOrder desiredBroken "app" liveEmpty =
      ([⟨Kind.create, "events", none, (create "events" (desiredBroken.get "events")).1⟩],
        Outcome.error "No columns defined") :=
  migrate_create_failure inOrder desiredBroken "app" liveEmpty ["events"] "broken" []
    "No columns defined" rfl (by decide) (by decide) (fun _ _ _ _ => rfl) (by decide)

/-- C14, at a session whose column-family query fails with
`no hosts available`: `Migrate` executes nothing and does not return; it
panics with the error `Could not query column families: no hosts available`. -/
theorem migrate_listing_failure_panics :
    Migrate inOrder desired "app" liveUnreachable =
      ([], Outcome.panic "Could not query column families: no hosts available") ∧
    (∀ err, (Migrate inOrder desired "app" liveUnreachable).2 ≠ Outcome.error err) := by
  refine ⟨by decide, ?_⟩
  intro err h
  have h2 : (Migrate inOrder desired "app" liveUnreachable).2 =
      Outcome.panic "Could not query column families: no hosts available" := by decide
  rw [h2] at h
  exact Outcome.noConfusion h

/-- The `present` loop passes the families whose column query succeeds when
the executor accepts every statement, and stops at the first family of `k`
whose column query fails. -/
theorem presentLoop_query_failure (rt : Runtime) (k : Keyspace) (ksname : String)
    (c : Session) (pre : List String) (key : String) (post : List String) (tr : List Call)
    (cf : ColumnFamily) (err : Error)
    (hexec : ∀ done q, c.exec done q = none)
    (hpre : ∀ name ∈ pre, c.columnsErr ksname name = none)
    (hk : k.lookup key = some cf) (herr : c.columnsErr ksname key = some err) :
    presentLoop rt k ksname c (pre ++ key :: post) tr =
      (tr ++ pre.flatMap (patchCalls rt k ksname c),
        some ("Could not query column names: " ++ err)) := by
  induction pre generalizing tr with
  | nil => simp [presentLoop_cons_query_err rt k ksname c key post tr cf err hk herr]
  | cons a pre2 ih =>
    have hrest : ∀ name ∈ pre2, c.columnsErr ksname name = none :=
      fun name h2 => hpre name (List.mem_cons_of_mem _ h2)
    rw [List.cons_append]
    cases hl : k.lookup a with
    | none =>
      rw [presentLoop_cons_absent rt k ksname c a _ tr hl, ih _ hrest]
      simp [patchCalls, hl]
    | some cf2 =>
      rw [presentLoop_cons_present rt k ksname c a _ tr cf2 hl
        (hpre a (List.mem_cons_self _ _)), alterLoop_succeeds c a _ tr hexec]
      simp only
      rw [ih _ hrest]
      simp [patchCalls, hl]

/-- C15 fails as stated: the column query of `users` fails with `timeout`,
and `Migrate` returns a new error with the message
`Could not query column names: timeout`, not the error `timeout` itself. -/
theorem migrate_column_query_failure_counterexample :
    liveUsersUnreadable.columnsErr "app" "users" = some "timeout" ∧
    (Migrate inOrder desired "app" liveUsersUnreadable).2 =
      Outcome.error "Could not query column names: timeout" ∧
    (Migrate inOrder desired "app" liveUsersUnreadable).2 ≠ Outcome.error "timeout" := by
  decide

/-- C15, amended: if listing the live columns of a present column family
fails, `Migrate` returns a new error whose message is
`Could not query column names: ` followed by the message of the introspection
error. When the listing succeeds, `create` succeeds on every missing family,
the executor accepts every statement, and the column query succeeds for the
families `pre` listed before `key` and fails with `err` for `key`, a family
of `k`: the statements passed to the executor are the `CREATE` statements of
the missing families and the `ALTER` statements of the families of `pre`; no
`ALTER` for `key` and no later statement. -/
theorem migrate_column_query_failure (rt : Runtime) (k : Keyspace) (ksname : String)
    (c : Session) (pre : List String) (key : String) (post : List String)
    (cf : ColumnFamily) (err : Error)
    (hfam : c.columnfamiliesErr ksname = none)
    (hcreate : ∀ n ∈ k.names, n ∉ c.columnfamilies ksname → (create n (k.get n)).2 = none)
    (hexec : ∀ done q, c.exec done q = none)
    (hsplit : c.columnfamilies ksname = pre ++ key :: post)
    (hpre : ∀ name ∈ pre, c.columnsErr ksname name = none)
    (hk : k.lookup key = some cf) (herr : c.columnsErr ksname key = some err) :
    Migrate rt k ksname c =
      (((mapkeys rt k).filter (fun n => decide (n ∉ c.columnfamilies ksname))).map
          (fun n => (⟨Kind.create, n, none, (create n (k.get n)).1⟩ : Call)) ++
        pre.flatMap (patchCalls rt k ksname c),
        Outcome.error ("Could not query column names: " ++ err)) ∧
    (∀ e ∈ (Migrate rt k ksname c).1, e.kind = Kind.alter → e.key ≠ key) := by
  have hm : Migrate rt k ksname c =
      ((missingFamilies rt k ksname c).map (createCall k) ++
        pre.flatMap (patchCalls rt k ksname c),
        Outcome.error ("Could not query column names: " ++ err)) := by
    rw [migrate_eq rt k ksname c hfam, createLoop_succeeds k c _ [] ?_ hexec]
    · simp only [List.nil_append]
      rw [hsplit, presentLoop_query_failure rt k ksname c pre key post _ cf err hexec hpre hk herr]
    · intro n hn
      obtain ⟨h1, h2⟩ := (mem_missingFamilies rt k ksname c n).mp hn
      exact hcreate n h1 h2
  refine ⟨hm, ?_⟩
  intro e he hkind heq
  rw [hm] at he
  rcases List.mem_append.mp he with h1 | h1
  · obtain ⟨n, _, rfl⟩ := List.mem_map.mp h1
    exact absurd hkind (by simp [createCall])
  · obtain ⟨a, ha, h2⟩ := List.mem_flatMap.mp h1
    have h3 := (patchCalls_kind rt k ksname c a e h2).2
    rw [heq] at h3
    rw [← h3] at ha
    have h4 := hpre key ha
    rw [herr] at h4
    exact Option.noConfusion h4

/-- C15, amended, at the desired keyspace `{users, events}` against the live
keyspace `{users}` whose column query fails with `timeout`. -/
theorem migrate_column_query_failure_witness :
    Migrate inOrder desired "app" liveUsersUnreadable =
      ([⟨Kind.create, "events", none, (create "events" (desired.get "events")).1⟩],
        Outcome.error ("Could not query column names: " ++ "timeout")) :=
  (migrate_column_query_failure inOrder desired "app" liveUsersUnreadable [] "users" []
    usersFamily "timeout" rfl (by decide) (fun _ _ => rfl) rfl (by decide) (by decide)
    (by decide)).1

/-! ## `Migrate`: a statement the executor refuses -/

theorem split_snoc {α : Type} (tr : List α) (x : α) (done : List α) (e : α) (rest : List α)
    (h : tr ++ [x] = done ++ e :: rest) :
    (done = tr ∧ e = x ∧ rest = []) ∨ ∃ rest1, tr = done ++ e :: rest1 := by
  rcases List.eq_nil_or_concat rest with hr | ⟨rest1, y, hr⟩
  · subst hr
    have h2 : tr ++ [x] = done ++ [e] := h
    obtain ⟨h3, h4⟩ := List.append_inj' h2 rfl
    simp only [List.cons.injEq, and_true] at h4
    exact Or.inl ⟨h3.symm, h4.symm, rfl⟩
  · subst hr
    have h2 : tr ++ [x] = (done ++ e :: rest1) ++ [y] := by
      rw [h]
      simp
    exact Or.inr ⟨rest1, (List.append_inj' h2 rfl).1⟩

theorem accepted_nil (c : Session) : Accepted c [] := by
  intro done e rest h
  cases done <;> simp at h

theorem accepted_snoc (c : Session) (tr : List Call) (x : Call) (h : Accepted c tr)
    (hx : c.exec (queries tr) x.query = none) : Accepted c (tr ++ [x]) := by
  intro done e rest hsplit
  rcases split_snoc tr x done e rest hsplit with ⟨h1, h2, _⟩ | ⟨rest1, h1⟩
  · rw [h1, h2]; exact hx
  · exact h done e rest1 h1

theorem stops_of_accepted (c : Session) (tr : List Call) (res : Option Error)
    (h : Accepted c tr) : Stops c tr res := by
  refine ⟨fun _ => h, ?_⟩
  intro done e rest err hsplit hexec
  rw [h done e rest hsplit] at hexec
  exact Option.noConfusion hexec

theorem stops_snoc_err (c : Session) (tr : List Call) (x : Call) (err : Error)
    (h : Accepted c tr) (hx : c.exec (queries tr) x.query = some err) :
    Stops c (tr ++ [x]) (some err) := by
  refine ⟨fun hn => Option.noConfusion hn, ?_⟩
  intro done e rest err2 hsplit hexec
  rcases split_snoc tr x done e rest hsplit with ⟨h1, h2, h3⟩ | ⟨rest1, h1⟩
  · rw [h1, h2, hx] at hexec
    exact ⟨h3, hexec⟩
  · rw [h done e rest1 h1] at hexec
    exact Option.noConfusion hexec

theorem createLoop_stops_at_refusal (k : Keyspace) (c : Session) (ms : List String)
    (tr : List Call) (h : Accepted c tr) :
    Stops c (createLoop k c ms tr).1 (createLoop k c ms tr).2 := by
  induction ms generalizing tr with
  | nil => exact stops_of_accepted c tr none h
  | cons key rest ih =>
    rcases createLoop_cases k c key rest tr with ⟨err, _, h2⟩ | ⟨err, _, he, h2⟩ | ⟨_, he, h2⟩
    · rw [h2]; exact stops_of_accepted c tr _ h
    · rw [h2]; exact stops_snoc_err c tr _ err h he
    · rw [h2]; exact ih _ (accepted_snoc c tr _ h he)

theorem alterLoop_stops_at_refusal (c : Session) (key : String) (es : List Column)
    (tr : List Call) (h : Accepted c tr) :
    Stops c (alterLoop c key es tr).1 (alterLoop c key es tr).2 := by
  induction es generalizing tr with
  | nil => exact stops_of_accepted c tr none h
  | cons e rest ih =>
    cases he : c.exec (queries tr) (alterStatement key e) with
    | some err =>
      simp only [alterLoop, he]
      exact stops_snoc_err c tr (alterCall key e) err h he
    | none =>
      simp only [alterLoop, he]
      exact ih _ (accepted_snoc c tr (alterCall key e) h he)

theorem presentLoop_stops_at_refusal (rt : Runtime) (k : Keyspace) (ksname : String)
    (c : Session) (present : List String) (tr : List Call) (h : Accepted c tr) :
    Stops c (presentLoop rt k ksname c present tr).1 (presentLoop rt k ksname c present tr).2 := by
  induction present generalizing tr with
  | nil => exact stops_of_accepted c tr none h
  | cons key rest ih =>
    cases hl : k.lookup key with
    | none =>
      rw [presentLoop_cons_absent rt k ksname c key rest tr hl]
      exact ih tr h
    | some cf =>
      cases hq : c.columnsErr ksname key with
      | some err =>
        rw [presentLoop_cons_query_err rt k ksname c key rest tr cf err hl hq]
        exact stops_of_accepted c tr _ h
      | none =>
        rw [presentLoop_cons_present rt k ksname c key rest tr cf hl hq]
        have hal := alterLoop_stops_at_refusal c key (missingColumns rt ksname c key cf) tr h
        rcases hloop : alterLoop c key (missingColumns rt ksname c key cf) tr with ⟨tr2, e2⟩
        rw [hloop] at hal
        cases e2 with
        | some err => exact hal
        | none => exact ih tr2 (hal.1 rfl)

/-- C13: if the executor fails on a statement, `Migrate` aborts on that first
failure. For every run, whatever else fails: a statement of the trace (a
`CREATE` or an `ALTER`) that the executor, after the statements before it,
has answered with the error `err` is the last statement passed to the
executor, and `Migrate` returns `err` itself. -/
theorem migrate_executor_failure (rt : Runtime) (k : Keyspace) (ksname : String) (c : Session)
    (done : List Call) (e : Call) (rest : List Call) (err : Error)
    (hsplit : (Migrate rt k ksname c).1 = done ++ e :: rest)
    (hrefused : c.exec (done.map (fun d => d.query)) e.query = some err) :
    rest = [] ∧ (Migrate rt k ksname c).2 = Outcome.error err := by
  cases hfam : c.columnfamiliesErr ksname with
  | some err2 =>
    rw [migrate_panics rt k ksname c err2 hfam] at hsplit
    cases done <;> simp at hsplit
  | none =>
    rw [migrate_eq rt k ksname c hfam] at hsplit ⊢
    have h1 := createLoop_stops_at_refusal k c (missingFamilies rt k ksname c) []
      (accepted_nil c)
    rcases hcl : createLoop k c (missingFamilies rt k ksname c) [] with ⟨tr1, e1⟩
    rw [hcl] at h1 hsplit
    cases e1 with
    | some err1 =>
      obtain ⟨h2, h3⟩ := h1.2 done e rest err hsplit hrefused
      simp only [Option.some.injEq] at h3
      exact ⟨h2, by rw [h3]⟩
    | none =>
      simp only at hsplit ⊢
      have h4 := presentLoop_stops_at_refusal rt k ksname c (c.columnfamilies ksname) tr1
        (h1.1 rfl)
      rcases hpl : presentLoop rt k ksname c (c.columnfamilies ksname) tr1 with ⟨tr2, e2⟩
      rw [hpl] at h4 hsplit
      cases e2 with
      | some err1 =>
        obtain ⟨h2, h3⟩ := h4.2 done e rest err hsplit hrefused
        simp only [Option.some.injEq] at h3
        exact ⟨h2, by rw [h3]⟩
      | none =>
        obtain ⟨_, h3⟩ := h4.2 done e rest err hsplit hrefused
        exact Option.noConfusion h3

/-- C13, at the desired keyspace `{users, events}` against the live keyspace
`{users}` whose executor refuses the second statement: the refused
`ALTER TABLE users ADD "email" text` is the last statement, and `Migrate`
returns the error `unauthorized` of the executor. -/
theorem migrate_executor_failure_witness :
    (Migrate inOrder desired "app" liveUsersRefusing).1 =
        [⟨Kind.create, "events", none, (create "events" (desired.get "events")).1⟩] ++
          ⟨Kind.alter, "users", some ⟨"email", "text", false⟩,
            "ALTER TABLE users ADD \"email\" text"⟩ :: [] ∧
    (Migrate inOrder desired "app" liveUsersRefusing).2 = Outcome.error "unauthorized" :=
  ⟨by decide,
    (migrate_executor_failure inOrder desired "app" liveUsersRefusing
      [⟨Kind.create, "events", none, (create "events" (desired.get "events")).1⟩]
      ⟨Kind.alter, "users", some ⟨"email", "text", false⟩, "ALTER TABLE users ADD \"email\" text"⟩
      [] "unauthorized" (by decide) (by decide)).2⟩

/-! ## `Migrate`: the order of the statements -/

theorem createLoop_trace_ok (k : Keyspace) (c : Session) (ms : List String) (tr : List Call) :
    ∃ j, (createLoop k c ms tr).1 = tr ++ (ms.take j).map (createCall k) ∧
      ∀ n ∈ ms.take j, (create n (k.get n)).2 = none := by
  induction ms generalizing tr with
  | nil => exact ⟨0, by simp [createLoop]⟩
  | cons key rest ih =>
    rcases createLoop_cases k c key rest tr with ⟨err, _, h⟩ | ⟨err, hc, _, h⟩ | ⟨hc, _, h⟩
    · exact ⟨0, by simp [h]⟩
    · refine ⟨1, by simp [h], ?_⟩
      intro n hn
      simp only [List.take_succ_cons, List.take_zero, List.mem_singleton] at hn
      rw [hn]; exact hc
    · obtain ⟨j, hj, hok⟩ := ih (tr ++ [createCall k key])
      refine ⟨j + 1, by simp [h, hj], ?_⟩
      intro n hn
      simp only [List.take_succ_cons, List.mem_cons] at hn
      rcases hn with hn | hn
      · rw [hn]; exact hc
      · exact hok n hn

theorem alterStatement_begins (key : String) (e : Column) :
    List.IsPrefix "ALTER TABLE ".data (alterStatement key e).data := by
  simp only [alterStatement, String.append_assoc, String.data_append]
  exact List.prefix_append _ _

theorem createCall_begins (k : Keyspace) (n : String) (h : (create n (k.get n)).2 = none) :
    List.IsPrefix "CREATE COLUMNFAMILY ".data (createCall k n).query.data := by
  obtain ⟨rest, hrest⟩ := create_ok_begins n (k.get n) h
  simp only [createCall, hrest, String.append_assoc, String.data_append]
  exact List.prefix_append _ _

/-- C17: `Migrate` creates first and patches afterwards. For every desired
keyspace and live schema, whatever fails, the sequence of the statements
passed to the executor is a sequence of statements of the first loop, each
beginning with `CREATE COLUMNFAMILY `, followed by a sequence of statements of
the second loop, each beginning with `ALTER TABLE `: no `CREATE` comes after
an `ALTER`. -/
theorem migrate_creates_then_alters (rt : Runtime) (k : Keyspace) (ksname : String)
    (c : Session) :
    ∃ creates alters, (Migrate rt k ksname c).1 = creates ++ alters ∧
      (∀ e ∈ creates, e.kind = Kind.create ∧
        List.IsPrefix "CREATE COLUMNFAMILY ".data e.query.data) ∧
      (∀ e ∈ alters, e.kind = Kind.alter ∧
        List.IsPrefix "ALTER TABLE ".data e.query.data) := by
  cases hfam : c.columnfamiliesErr ksname with
  | some err =>
    refine ⟨[], [], by rw [migrate_panics rt k ksname c err hfam]; rfl, ?_, ?_⟩ <;>
      intro e he <;> exact absurd he (List.not_mem_nil _)
  | none =>
    obtain ⟨j, hj, hok⟩ := createLoop_trace_ok k c (missingFamilies rt k ksname c) []
    have hcreates : ∀ e ∈ ((missingFamilies rt k ksname c).take j).map (createCall k),
        e.kind = Kind.create ∧ List.IsPrefix "CREATE COLUMNFAMILY ".data e.query.data := by
      intro e he
      obtain ⟨n, hn, rfl⟩ := List.mem_map.mp he
      exact ⟨rfl, createCall_begins k n (hok n hn)⟩
    rw [migrate_eq rt k ksname c hfam]
    rcases hcl : createLoop k c (missingFamilies rt k ksname c) [] with ⟨tr1, e1⟩
    rw [hcl, List.nil_append] at hj
    simp only at hj
    cases e1 with
    | some err =>
      refine ⟨tr1, [], by simp, ?_, ?_⟩
      · rw [hj]; exact hcreates
      · intro e he; exact absurd he (List.not_mem_nil _)
    | none =>
      obtain ⟨new, h1, h2⟩ := presentLoop_trace rt k ksname c (c.columnfamilies ksname) tr1
      refine ⟨tr1, new, ?_, ?_, ?_⟩
      · simp only
        rcases hpl : presentLoop rt k ksname c (c.columnfamilies ksname) tr1 with ⟨tr2, e2⟩
        rw [hpl] at h1
        cases e2 <;> exact h1
      · rw [hj]; exact hcreates
      · intro e he
        obtain ⟨key, _, hkey⟩ := h2 e he
        refine ⟨(patchCalls_kind rt k ksname c key e hkey).1, ?_⟩
        unfold patchCalls at hkey
        cases hl : k.lookup key with
        | none => rw [hl] at hkey; exact absurd hkey (List.not_mem_nil _)
        | some cf =>
          rw [hl] at hkey
          obtain ⟨col, _, rfl⟩ := List.mem_map.mp hkey
          exact alterStatement_begins key col

/-! ## `Migrate`: the order of the `ALTER` statements -/

theorem rangeValues_perm_runs (rt1 rt2 : Runtime) (key : String) (m : ColumnMap) :
    (rangeValues rt1 key m).Perm (rangeValues rt2 key m) :=
  List.Perm.filterMap _ ((rt1.perm _ _).trans (rt2.perm _ _).symm)

theorem patchCalls_perm_runs (rt1 rt2 : Runtime) (k : Keyspace) (ksname : String)
    (c : Session) (key : String) :
    (patchCalls rt1 k ksname c key).Perm (patchCalls rt2 k ksname c key) := by
  unfold patchCalls
  cases k.lookup key with
  | none => exact List.Perm.refl _
  | some cf => exact (rangeValues_perm_runs rt1 rt2 key _).map _

/-- The order of one `range` loop does not bind another: in one run the
missing columns of `users` are added in the listed order and those of `people`
in the reverse order. -/
theorem migrate_orders_independent :
    queries (Migrate mixed desiredPeople "app" liveUsersPeople).1 =
      ["ALTER TABLE users ADD \"name\" text", "ALTER TABLE users ADD \"email\" text",
        "ALTER TABLE people ADD \"email\" text", "ALTER TABLE people ADD \"name\" text"] := by
  decide

/-- C18 fails as stated: `users` (desired `id`, `name`, `email`) is live with
the column `id`. A run whose `range` loops visit the map in the listed order
adds `name` and then `email`; a run whose loops visit it in the reverse order
adds `email` and then `name`. The two runs have the same inputs and pass
different sequences of `ALTER` statements. -/
theorem migrate_alter_order_counterexample :
    ((Migrate inOrder desired "app" liveUsersIdOnly).1.filter
        (fun e => decide (e.kind = Kind.alter))).map (fun e => e.query) =
      ["ALTER TABLE users ADD \"name\" text", "ALTER TABLE users ADD \"email\" text"] ∧
    ((Migrate reversed desired "app" liveUsersIdOnly).1.filter
        (fun e => decide (e.kind = Kind.alter))).map (fun e => e.query) =
      ["ALTER TABLE users ADD \"email\" text", "ALTER TABLE users ADD \"name\" text"] ∧
    ((Migrate inOrder desired "app" liveUsersIdOnly).1.filter
        (fun e => decide (e.kind = Kind.alter))).map (fun e => e.query) ≠
      ((Migrate reversed desired "app" liveUsersIdOnly).1.filter
        (fun e => decide (e.kind = Kind.alter))).map (fun e => e.query) := by
  decide

/-- C18, amended: the `ALTER` statements for the missing columns of one
column family are fixed by the inputs up to their order, which is the order
in which the run visits a Go map, chosen anew for every `range` loop. For two
runs on the same desired keyspace and the same live schema, under any
iteration orders of their loops, when the listing
and the column queries succeed, `create` succeeds on every missing family and
the executor accepts every statement, the `ALTER` calls of the two runs for a
column family are the same calls, each as many times, in some order. -/
theorem migrate_alter_order (rt1 rt2 : Runtime) (k : Keyspace) (ksname : String)
    (c : Session) (key : String)
    (hfam : c.columnfamiliesErr ksname = none)
    (hcol : ∀ name ∈ c.columnfamilies ksname, c.columnsErr ksname name = none)
    (hcreate : ∀ n ∈ k.names, n ∉ c.columnfamilies ksname → (create n (k.get n)).2 = none)
    (hexec : ∀ done q, c.exec done q = none) :
    ((Migrate rt1 k ksname c).1.filter
        (fun e => decide (e.kind = Kind.alter ∧ e.key = key))).Perm
      ((Migrate rt2 k ksname c).1.filter
        (fun e => decide (e.kind = Kind.alter ∧ e.key = key))) := by
  have hcreates : ∀ rt : Runtime, ((missingFamilies rt k ksname c).map (createCall k)).filter
      (fun e => decide (e.kind = Kind.alter ∧ e.key = key)) = [] := by
    intro rt
    rw [List.filter_eq_nil_iff]
    intro e he
    obtain ⟨n, _, rfl⟩ := List.mem_map.mp he
    simp [createCall]
  rw [migrate_succeeds rt1 k ksname c hfam hcol hcreate hexec,
    migrate_succeeds rt2 k ksname c hfam hcol hcreate hexec]
  simp only [List.filter_append, hcreates, List.nil_append]
  exact List.Perm.filter _
    (List.Perm.flatMap_left _ (fun a _ => patchCalls_perm_runs rt1 rt2 k ksname c a))

/-- C18, amended, at the desired keyspace `{users, people}` against the live
keyspace in which both have the column `id` only, for the run that visits
every map in the listed order and the run that visits the columns of `people`
alone in the reverse order. -/
theorem migrate_alter_order_witness :
    ((Migrate inOrder desiredPeople "app" liveUsersPeople).1.filter
        (fun e => decide (e.kind = Kind.alter ∧ e.key = "people"))).Perm
      ((Migrate mixed desiredPeople "app" liveUsersPeople).1.filter
        (fun e => decide (e.kind = Kind.alter ∧ e.key = "people"))) :=
  migrate_alter_order inOrder mixed desiredPeople "app" liveUsersPeople "people" rfl
    (fun _ _ => rfl) (by decide) (fun _ _ => rfl)

end Cql
